import Mathlib

/-!
Verification of the subtitle-authoring tool (rashmi-set-cap).

Shallow embedding conventions:
* TypeScript strings are `List Char`; `ls` converts a Lean string literal.
* JavaScript numbers are modelled exactly as rationals; `NaN` is `none` in
  `Option ℚ` (the values arising here are finite decimal fractions, so exact
  rational arithmetic is faithful; float rounding, overflow to `Infinity` and
  the `parseFloat` literal `Infinity` are not modelled and do not occur in the
  timestamp domain the code handles).
* Fallible operations return `Option`/`Except`.
-/

/-- Converts a Lean string literal to the `List Char` representation used for
TypeScript strings throughout this development. -/
def ls (s : String) : List Char := s.toList

/-- JavaScript whitespace test, covering the ASCII whitespace characters
recognised both by `String.prototype.trim` and by the regex class `\s`
(space, tab, line feed, carriage return, vertical tab, form feed).
Non-ASCII whitespace is not modelled and never occurs in the inputs here. -/
def isJsWs (c : Char) : Bool :=
  c.toNat = 32 || c.toNat = 9 || c.toNat = 10 || c.toNat = 13 || c.toNat = 11 || c.toNat = 12

/-- Models `String.prototype.trim`: drop whitespace from both ends. -/
def jsTrim (s : List Char) : List Char :=
  ((s.dropWhile isJsWs).reverse.dropWhile isJsWs).reverse

/-- `leadsWith pat s` holds when `pat` occurs at the very start of `s`. -/
def leadsWith : List Char → List Char → Bool
  | [], _ => true
  | _ :: _, [] => false
  | p :: ps, c :: cs => p = c && leadsWith ps cs

/-- Index of the leftmost occurrence of the substring `pat` in `s`
(models `String.prototype.indexOf` with a string argument). -/
def findSubstr (pat : List Char) : List Char → Option ℕ
  | [] => if leadsWith pat [] then some 0 else none
  | c :: cs => if leadsWith pat (c :: cs) then some 0 else (findSubstr pat cs).map (· + 1)

/-- Fuel-driven worker for `splitOnSep` (the fuel only needs to reach the
input length; each cut consumes at least one character). -/
def splitOnSepAux (c : Char) (cs : List Char) : ℕ → List Char → List (List Char)
  | 0, s => [s]
  | fuel + 1, s =>
    match findSubstr (c :: cs) s with
    | none => [s]
    | some i => s.take i :: splitOnSepAux c cs fuel (s.drop (i + (cs.length + 1)))

/-- Models `String.prototype.split` with a separator string `c :: cs`
(JavaScript splits on each non-overlapping leftmost occurrence). -/
def splitOnSep (c : Char) (cs s : List Char) : List (List Char) :=
  splitOnSepAux c cs s.length s

/-- Models `String.prototype.split` with a single-character separator. -/
def splitOnChar (c : Char) : List Char → List (List Char)
  | [] => [[]]
  | x :: xs =>
    if x = c then [] :: splitOnChar c xs
    else
      match splitOnChar c xs with
      | [] => [[x]]
      | h :: t => (x :: h) :: t

/-- Models `String.prototype.replace` with a single-character string pattern:
only the first occurrence is replaced. -/
def replaceFirstChar (c d : Char) : List Char → List Char
  | [] => []
  | x :: xs => if x = c then d :: xs else x :: replaceFirstChar c d xs

/-- Models `Array.prototype.join` with separator `sep`. -/
def joinSep (sep : List Char) : List (List Char) → List Char
  | [] => []
  | [x] => x
  | x :: y :: rest => x ++ sep ++ joinSep sep (y :: rest)

/-- `Array.prototype.map` with the element index, modelling the fact that the
source numbers blocks from a running index. -/
def mapWithIndex {α β : Type} (f : ℕ → α → β) : ℕ → List α → List β
  | _, [] => []
  | k, x :: xs => f k x :: mapWithIndex f (k + 1) xs

/-- Decimal digit character for `n < 10`. -/
def digitChar (n : ℕ) : Char := Char.ofNat (48 + n)

/-- Decimal digit test (ASCII `0`–`9`). -/
def isDigitCh (c : Char) : Bool := 48 ≤ c.toNat && c.toNat ≤ 57

/-- Numeric value of a digit character. -/
def digitToNat (c : Char) : ℕ := c.toNat - 48

/-- Fuel-driven digit expansion of a natural number (most significant first);
the fuel only needs to exceed the number of digits. -/
def natDigitsAux : ℕ → ℕ → List Char
  | 0, _ => []
  | fuel + 1, n => if n < 10 then [digitChar n] else natDigitsAux fuel (n / 10) ++ [digitChar (n % 10)]

/-- Decimal representation of a natural number, as produced by JavaScript
`Number.prototype.toString` for the small non-negative integers used here. -/
def natDigits (n : ℕ) : List Char := natDigitsAux (n + 1) n

/-- Models `String.prototype.padStart(k, "0")`. -/
def padTo (k : ℕ) (s : List Char) : List Char := List.replicate (k - s.length) '0' ++ s

/-- Two-digit zero-padded field of a timecode. -/
def pad2 (n : ℕ) : List Char := padTo 2 (natDigits n)

/-- Three-digit zero-padded millisecond field of a timecode. -/
def pad3 (n : ℕ) : List Char := padTo 3 (natDigits n)

/-- Value of a list of digit characters read in base 10 (leading zeros allowed). -/
def digitsVal (l : List Char) : ℕ := l.foldl (fun a c => 10 * a + digitToNat c) 0

/-- Parse the maximal leading run of decimal digits; `none` when there is no
leading digit.  Returns the value and the unconsumed remainder. -/
def parseNatPart (s : List Char) : Option (ℕ × List Char) :=
  let ds := s.takeWhile isDigitCh
  if ds.isEmpty then none else some (digitsVal ds, s.dropWhile isDigitCh)

/-- NaN-propagating addition of JavaScript numbers. -/
def jsAdd : Option ℚ → Option ℚ → Option ℚ
  | some a, some b => some (a + b)
  | _, _ => none

/-- NaN-propagating multiplication by an integer constant. -/
def jsMulNat (x : Option ℚ) (k : ℕ) : Option ℚ := x.map (· * (k : ℚ))

/-- Models JavaScript `parseInt(s, 10)`: skip whitespace, optional sign, then
the maximal run of decimal digits; NaN (`none`) when no digit is found. -/
def jsParseInt (s : List Char) : Option ℚ :=
  let t := s.dropWhile isJsWs
  match t with
  | [] => none
  | c :: r =>
    if c = '-' then (parseNatPart r).map (fun p => -(p.1 : ℚ))
    else if c = '+' then (parseNatPart r).map (fun p => (p.1 : ℚ))
    else (parseNatPart (c :: r)).map (fun p => (p.1 : ℚ))

/-- Value of a fractional digit run `ds` appearing after a decimal point. -/
def fracQ (ds : List Char) : ℚ := (digitsVal ds : ℚ) / 10 ^ ds.length

/-- Optional exponent part of a JavaScript decimal literal (`e`/`E`, optional
sign, digits); without a digit the exponent marker is not consumed. -/
def expApply (m : ℚ) (r : List Char) : ℚ :=
  match r with
  | [] => m
  | c :: r3 =>
    if c = '-' then
      match parseNatPart r3 with
      | some p => m / 10 ^ p.1
      | none => m
    else if c = '+' then
      match parseNatPart r3 with
      | some p => m * 10 ^ p.1
      | none => m
    else
      match parseNatPart (c :: r3) with
      | some p => m * 10 ^ p.1
      | none => m

/-- Apply an exponent marker if present at the start of `r`. -/
def applyExp (m : ℚ) (r : List Char) : ℚ :=
  match r with
  | [] => m
  | c :: r2 => if c = 'e' ∨ c = 'E' then expApply m r2 else m

/-- Unsigned part of JavaScript `parseFloat`: `digits [. digits] [exp]` or
`. digits [exp]`, taking the longest valid prefix. -/
def jsParseFloatCore (t : List Char) : Option ℚ :=
  match parseNatPart t with
  | some (ip, r) =>
    match r with
    | [] => some (applyExp (ip : ℚ) [])
    | c :: r2 =>
      if c = '.' then
        some (applyExp ((ip : ℚ) + fracQ (r2.takeWhile isDigitCh)) (r2.dropWhile isDigitCh))
      else some (applyExp (ip : ℚ) (c :: r2))
  | none =>
    match t with
    | [] => none
    | c :: r2 =>
      if c = '.' then
        (if (r2.takeWhile isDigitCh).isEmpty then none
         else some (applyExp (fracQ (r2.takeWhile isDigitCh)) (r2.dropWhile isDigitCh)))
      else none

/-- Models JavaScript `parseFloat`: whitespace, optional sign, then the longest
prefix that is a decimal literal; NaN (`none`) otherwise. -/
def jsParseFloat (s : List Char) : Option ℚ :=
  let t := s.dropWhile isJsWs
  match t with
  | [] => none
  | c :: r =>
    if c = '-' then (jsParseFloatCore r).map (fun q => -q)
    else if c = '+' then jsParseFloatCore r
    else jsParseFloatCore (c :: r)

/-- Models `parseTimeString` from `utils/timeUtils.ts`: empty string gives 0;
otherwise the first comma is replaced by a period, the string is split on `:`,
three components are read as `HH:MM:SS.mmm`, two as `MM:SS.mmm`, and any other
component count leaves the accumulator at 0.  NaN results from the numeric
parses propagate through the additions. -/
def parseTimeString (timeString : List Char) : Option ℚ :=
  if timeString.isEmpty then some 0
  else
    let normalized := replaceFirstChar ',' '.' timeString
    let parts := splitOnChar ':' normalized
    match parts with
    | [p0, p1, p2] =>
      jsAdd (jsAdd (jsAdd (some 0) (jsMulNat (jsParseInt p0) 3600))
        (jsMulNat (jsParseInt p1) 60)) (jsParseFloat p2)
    | [p0, p1] =>
      jsAdd (jsAdd (some 0) (jsMulNat (jsParseInt p0) 60)) (jsParseFloat p1)
    | _ => some 0

/-- Truncation toward zero, as performed by ECMAScript `ToIntegerOrInfinity`
on the finite rationals modelled here. -/
def jsTrunc (q : ℚ) : ℤ := if 0 ≤ q then ⌊q⌋ else -⌊-q⌋

/-- Models `formatSrtTime` from `utils/timeUtils.ts`.  The source routes the
value through a `Date`: `setMilliseconds(seconds * 1000)` truncates to an
integral millisecond count, and the `getUTC*` accessors extract hour, minute,
second and millisecond fields by floor division and non-negative remainder
(hours are taken modulo 24).  A NaN time yields `"NaN"` in every field, which
`padStart` leaves unchanged. -/
def formatSrtTime (x : Option ℚ) : List Char :=
  match x with
  | none => ls "NaN:NaN:NaN,NaN"
  | some q =>
    let t := jsTrunc (q * 1000)
    let hh := (Int.fmod (Int.fdiv t 3600000) 24).toNat
    let mm := (Int.fmod (Int.fdiv t 60000) 60).toNat
    let ss := (Int.fmod (Int.fdiv t 1000) 60).toNat
    let ms := (Int.fmod t 1000).toNat
    pad2 hh ++ ':' :: pad2 mm ++ ':' :: pad2 ss ++ ',' :: pad3 ms

/-- The timed-segment record of `types.ts`.  The opaque string identifier
produced by `crypto.randomUUID()` is modelled as a natural number issued
freshly (sequentially) per created record. -/
structure SubtitleSegment where
  id : ℕ
  startTime : Option ℚ
  endTime : Option ℚ
  text : List Char
deriving DecidableEq

/-- One numbered block of `generateSrt` (index, timecode pair, trimmed text,
trailing newline). -/
def srtBlock (index : ℕ) (seg : SubtitleSegment) : List Char :=
  natDigits (index + 1) ++ '\n' ::
    (formatSrtTime seg.startTime ++ ls " --> " ++ formatSrtTime seg.endTime) ++ '\n' ::
    (jsTrim seg.text ++ ['\n'])

/-- Models `generateSrt` from `utils/timeUtils.ts`: the numbered blocks joined
with a newline. -/
def generateSrt (segments : List SubtitleSegment) : List Char :=
  joinSep ['\n'] (mapWithIndex srtBlock 0 segments)

/-- Newline normalisation at the start of `parseSrt`: `\r\n` then bare `\r`
globally replaced by `\n` (the global regex replaces each non-overlapping
pair left to right). -/
def replaceCrlf : List Char → List Char
  | [] => []
  | [x] => [x]
  | x :: y :: rest =>
    if x = '\r' ∧ y = '\n' then '\n' :: replaceCrlf rest
    else x :: replaceCrlf (y :: rest)

/-- Both global replacements of `parseSrt`'s normalisation step. -/
def normalizeNewlines (s : List Char) : List Char :=
  (replaceCrlf s).map (fun c => if c = '\r' then '\n' else c)

/-- Per-block step of `parseSrt`: a trimmed block with at least three lines
contributes a record when its second line splits on `" --> "` into a truthy
(non-empty) start and end; otherwise the block is skipped. -/
def parseSrtBlock (block : List Char) : Option (Option ℚ × Option ℚ × List Char) :=
  match splitOnChar '\n' (jsTrim block) with
  | _ :: timecode :: t1 :: trest =>
    match splitOnSep ' ' (ls "--> ") timecode with
    | s0 :: s1 :: _ =>
      if s0.isEmpty || s1.isEmpty then none
      else some (parseTimeString s0, parseTimeString s1, joinSep [' '] (t1 :: trest))
    | _ => none
  | _ => none

/-- Models `parseSrt` from `utils/timeUtils.ts`: normalise newlines, split on
blank-line boundaries (`"\n\n"`), keep the blocks that parse, and assign fresh
identifiers in order of appearance. -/
def parseSrt (srtContent : List Char) : List SubtitleSegment :=
  let normalized := normalizeNewlines srtContent
  let blocks := splitOnSep '\n' ['\n'] normalized
  mapWithIndex (fun i p => { id := i, startTime := p.1, endTime := p.2.1, text := p.2.2 })
    0 (blocks.filterMap parseSrtBlock)

/-- Index of the first occurrence of a character (models `String.prototype.indexOf`
with the `-1` failure encoded as `none`). -/
def indexOfChar (c : Char) : List Char → Option ℕ
  | [] => none
  | x :: xs => if x = c then some 0 else (indexOfChar c xs).map (· + 1)

/-- Index of the last occurrence of a character (models `String.prototype.lastIndexOf`). -/
def lastIndexOfChar (c : Char) : List Char → Option ℕ
  | [] => none
  | x :: xs =>
    match lastIndexOfChar c xs with
    | some i => some (i + 1)
    | none => if x = c then some 0 else none

/-- Models `String.prototype.substring(i, j)` for the in-range, ordered indices
used by the source. -/
def jsSubstring (s : List Char) (i j : ℕ) : List Char := (s.take j).drop i

/-- The backtick character, written by code point to keep it out of the source
text of this file. -/
def fenceChar : Char := Char.ofNat 96

/-- The three-backtick code-fence marker. -/
def fence3 : List Char := [fenceChar, fenceChar, fenceChar]

/-- The optional `json` tag of a fence opener. -/
def jsonTag : List Char := ['j', 's', 'o', 'n']

/-- Capture group of the first match of the fence regex
`fence (json)? \s* (lazy content) \s* fence`.  The leftmost fence marker is the
only possible match start (a later successful start would exhibit a closing
marker after the first one, contradiction), `json` is consumed greedily when
present, the leading `\s*` is greedy, the lazy group then ends at the last
non-whitespace character before the next fence marker. -/
def regexFenceGroup (s : List Char) : Option (List Char) :=
  match findSubstr fence3 s with
  | none => none
  | some p =>
    let u0 := s.drop (p + 3)
    let u := if leadsWith jsonTag u0 then u0.drop 4 else u0
    match findSubstr fence3 u with
    | none => none
    | some m =>
      let w := (u.takeWhile isJsWs).length
      some ((((u.take m).drop w).reverse.dropWhile isJsWs).reverse)

/-- Fence-extraction step of `sanitizeAndRepairJson`: when the text contains a
fence marker and the regex matches with a truthy (non-empty) capture, the
trimmed capture replaces the text. -/
def fenceExtract (clean0 : List Char) : List Char :=
  if (findSubstr fence3 clean0).isSome then
    match regexFenceGroup clean0 with
    | some g => if g.isEmpty then clean0 else jsTrim g
    | none => clean0
  else clean0

/-- Fallback branch of `sanitizeAndRepairJson` when no `]` follows the first
`[`: slice up to and including the last `}` after the `[` and append a
synthetic `]`; with no such `}` the result is the literal `"[]"`. -/
def repairTail (clean : List Char) (firstBracket : ℕ) : List Char :=
  match lastIndexOfChar '}' clean with
  | some lastValidClosingBrace =>
    if firstBracket < lastValidClosingBrace then
      jsSubstring clean firstBracket (lastValidClosingBrace + 1) ++ [']']
    else ls "[]"
  | none => ls "[]"

/-- Models `sanitizeAndRepairJson` from `services/geminiService.ts`. -/
def sanitizeAndRepairJson (text : List Char) : List Char :=
  let clean := fenceExtract (jsTrim text)
  match indexOfChar '[' clean with
  | none => ls "[]"
  | some firstBracket =>
    match lastIndexOfChar ']' clean with
    | some lastBracket =>
      if lastBracket < firstBracket then repairTail clean firstBracket
      else jsSubstring clean firstBracket (lastBracket + 1)
    | none => repairTail clean firstBracket

/-- JSON values of the shapes `JSON.parse` can return on the model's response
channel: strings, arrays and objects.  Numbers, booleans and `null` do not
occur under the declared response schema and are left out of the model (the
parser rejects them). -/
inductive JsonVal where
  | str (s : List Char) : JsonVal
  | arr (items : List JsonVal) : JsonVal
  | obj (fields : List (List Char × JsonVal)) : JsonVal

/-- JSON insignificant whitespace (space, tab, line feed, carriage return). -/
def isJsonWs (c : Char) : Bool := c = ' ' || c = '\t' || c = '\n' || c = '\r'

/-- Skip JSON whitespace. -/
def jsonSkipWs (s : List Char) : List Char := s.dropWhile isJsonWs

/-- Body of a JSON string after the opening quote, with the basic escape
sequences (`\u` escapes are not modelled; they never occur here). -/
def jsonStringBody : List Char → Option (List Char × List Char)
  | [] => none
  | '"' :: rest => some ([], rest)
  | '\\' :: e :: rest =>
    match
      (match e with
       | '"' => some '"'
       | '\\' => some '\\'
       | '/' => some '/'
       | 'n' => some '\n'
       | 't' => some '\t'
       | 'r' => some '\r'
       | 'b' => some (Char.ofNat 8)
       | 'f' => some (Char.ofNat 12)
       | _ => none) with
    | some c => (jsonStringBody rest).map (fun p => (c :: p.1, p.2))
    | none => none
  | c :: rest => (jsonStringBody rest).map (fun p => (c :: p.1, p.2))

mutual

/-- Fuel-driven recursive-descent JSON value parser (the fuel only needs to
exceed the input length). -/
def jsonVal : ℕ → List Char → Option (JsonVal × List Char)
  | 0, _ => none
  | fuel + 1, s =>
    match jsonSkipWs s with
    | '"' :: r => (jsonStringBody r).map (fun p => (JsonVal.str p.1, p.2))
    | '[' :: r =>
      (match jsonSkipWs r with
       | ']' :: r2 => some (JsonVal.arr [], r2)
       | _ => (jsonElems fuel r).map (fun p => (JsonVal.arr p.1, p.2)))
    | '{' :: r =>
      (match jsonSkipWs r with
       | '}' :: r2 => some (JsonVal.obj [], r2)
       | _ => (jsonMembers fuel r).map (fun p => (JsonVal.obj p.1, p.2)))
    | _ => none

/-- Comma-separated JSON array elements followed by `]`. -/
def jsonElems : ℕ → List Char → Option (List JsonVal × List Char)
  | 0, _ => none
  | fuel + 1, s =>
    match jsonVal fuel s with
    | none => none
    | some (v, r) =>
      match jsonSkipWs r with
      | ',' :: r2 => (jsonElems fuel r2).map (fun p => (v :: p.1, p.2))
      | ']' :: r2 => some ([v], r2)
      | _ => none

/-- Comma-separated JSON object members followed by `}`. -/
def jsonMembers : ℕ → List Char → Option (List (List Char × JsonVal) × List Char)
  | 0, _ => none
  | fuel + 1, s =>
    match jsonSkipWs s with
    | '"' :: r =>
      match jsonStringBody r with
      | none => none
      | some (k, r2) =>
        match jsonSkipWs r2 with
        | ':' :: r3 =>
          match jsonVal fuel r3 with
          | none => none
          | some (v, r4) =>
            match jsonSkipWs r4 with
            | ',' :: r5 => (jsonMembers fuel r5).map (fun p => ((k, v) :: p.1, p.2))
            | '}' :: r5 => some ([(k, v)], r5)
            | _ => none
        | _ => none
    | _ => none

end

/-- Models `JSON.parse` on the value shapes of `JsonVal`: a single value with
nothing but whitespace after it. -/
def jsonParse (s : List Char) : Option JsonVal :=
  match jsonVal (s.length + 1) s with
  | some (v, rest) => if (jsonSkipWs rest).isEmpty then some v else none
  | none => none

/-- Property access on a parsed JSON object: JavaScript keeps the last of
duplicate keys, and access on a non-object JSON value of these shapes yields
`undefined` (`none`). -/
def jsonField (v : JsonVal) (k : List Char) : Option JsonVal :=
  match v with
  | JsonVal.obj fields => ((fields.reverse).find? (fun f => f.1 = k)).map (fun f => f.2)
  | _ => none

/-- Exceptions that can be raised inside the inner `try` of
`generateSubtitles`: a `SyntaxError` from `JSON.parse`, the deliberately
thrown `"No speech detected."`, or a `TypeError` from using a non-array /
ill-typed parse result. -/
inductive InnerThrow where
  | jsonSyntaxError : InnerThrow
  | noSpeechDetected : InnerThrow
  | typeError : InnerThrow
deriving DecidableEq

/-- Errors surfaced by `generateSubtitles` (credential and network failures
are outside the modelled slice).  `noSpeech` is the error the spec expects for
an empty record list. -/
inductive GenError where
  | emptyResponse : GenError
  | parseFailure : GenError
  | noSpeech : GenError
deriving DecidableEq

/-- Mapping of one parsed item to a (start, end, text) triple, as performed by
the `parsedItems.map` callback.  A missing field is `undefined`, which
`parseTimeString` coerces to 0 through its falsiness test and which is
modelled as the empty string for the text; a non-string `start`/`end` value
would make `replace` throw a `TypeError` (`none`). -/
def itemToProto (v : JsonVal) : Option (Option ℚ × Option ℚ × List Char) :=
  let startV :=
    match jsonField v (ls "start") with
    | some (JsonVal.str s) => some (parseTimeString s)
    | none => some (parseTimeString [])
    | some _ => none
  let endV :=
    match jsonField v (ls "end") with
    | some (JsonVal.str s) => some (parseTimeString s)
    | none => some (parseTimeString [])
    | some _ => none
  let textV :=
    match jsonField v (ls "text") with
    | some (JsonVal.str s) => s
    | _ => []
  match startV, endV with
  | some a, some b => some (a, b, textV)
  | _, _ => none

/-- The inner `try` block of `generateSubtitles` applied to the repaired JSON
text: parse, throw `"No speech detected."` on a zero-length result, otherwise
map every item to a timed triple.  (A string parse result exposes a `length`
as well; any other non-array shape fails the element mapping.) -/
def interpretInner (jsonText : List Char) :
    Except InnerThrow (List (Option ℚ × Option ℚ × List Char)) :=
  match jsonParse jsonText with
  | none => Except.error InnerThrow.jsonSyntaxError
  | some (JsonVal.arr items) =>
    if items.isEmpty then Except.error InnerThrow.noSpeechDetected
    else
      match items.mapM itemToProto with
      | some protos => Except.ok protos
      | none => Except.error InnerThrow.typeError
  | some (JsonVal.str s) =>
    if s.isEmpty then Except.error InnerThrow.noSpeechDetected
    else Except.error InnerThrow.typeError
  | some (JsonVal.obj _) => Except.error InnerThrow.typeError

/-- Models the response-handling tail of `generateSubtitles` from
`services/geminiService.ts` as a function of the model's raw text: an empty
response is its own error; otherwise the text is repaired and handed to the
inner `try`, whose `catch (parseError)` clause replaces EVERY exception thrown
inside it — including the deliberate `"No speech detected."` throw — by the
single parse-failure error.  Identifiers are issued freshly per segment. -/
def generateSubtitlesResult (rawText : List Char) : Except GenError (List SubtitleSegment) :=
  if rawText.isEmpty then Except.error GenError.emptyResponse
  else
    match interpretInner (sanitizeAndRepairJson rawText) with
    | Except.error _ => Except.error GenError.parseFailure
    | Except.ok protos =>
      Except.ok (mapWithIndex
        (fun i p => { id := i, startTime := p.1, endTime := p.2.1, text := p.2.2 }) 0 protos)

/-- Clamp of one float sample to `[-1, 1]` (`Math.max(-1, Math.min(1, x))`). -/
def jsClamp (x : ℚ) : ℚ := max (-1) (min 1 x)

/-- The float handed to `setInt16` for one sample: clamp, then scale negatives
by 0x8000 and non-negatives by 0x7FFF. -/
def quantRaw (x : ℚ) : ℚ :=
  let s := jsClamp x
  if s < 0 then s * 32768 else s * 32767

/-- The integer actually stored for one sample (`setInt16` truncates toward
zero before taking the value modulo 2^16). -/
def quantizeSample (x : ℚ) : ℤ := jsTrunc (quantRaw x)

/-- Little-endian byte pair of a 16-bit value. -/
def le2 (v : ℕ) : List ℕ := [v % 256, v / 256 % 256]

/-- Little-endian byte quadruple of a 32-bit value. -/
def le4 (v : ℕ) : List ℕ := [v % 256, v / 256 % 256, v / 65536 % 256, v / 16777216 % 256]

/-- The two bytes written for one sample (two's-complement wrap to 16 bits,
little endian). -/
def sampleBytes (x : ℚ) : List ℕ := le2 ((Int.emod (quantizeSample x) 65536).toNat)

/-- The 44-byte container header written by `extractAudioBase64` for a payload
of `n` samples: RIFF size, `WAVE`, PCM `fmt ` chunk for 1 channel at 16000 Hz,
16 bits, byte-rate 32000, block-align 2, and the `data` chunk size. -/
def wavHeader (n : ℕ) : List ℕ :=
  (ls "RIFF").map Char.toNat ++ le4 ((36 + n * 2) % 4294967296) ++
  (ls "WAVE").map Char.toNat ++
  (ls "fmt ").map Char.toNat ++ le4 16 ++
  le2 1 ++ le2 1 ++ le4 16000 ++ le4 32000 ++ le2 2 ++ le2 16 ++
  (ls "data").map Char.toNat ++ le4 (n * 2 % 4294967296)

/-- The container byte sequence built by `extractAudioBase64` from the rendered
channel samples (header, then each quantized sample little endian). -/
def wavBytes (channelData : List ℚ) : List ℕ :=
  wavHeader channelData.length ++ (channelData.map sampleBytes).flatten

/-- Sample count of the offline rendering pass: the `OfflineAudioContext` is
constructed with `length = duration * 16000`, which WebIDL coerces to an
unsigned 32-bit integer by truncation; the rendered buffer and its channel
data have exactly that many frames. -/
def renderLength (d : ℚ) : ℕ := (Int.emod (jsTrunc (d * 16000)) 4294967296).toNat

/-- Head-of-list failure of a predicate (vacuously true for the empty list);
used to express where a maximal-prefix scan stops. -/
def headFails (p : Char → Bool) : List Char → Bool
  | [] => true
  | c :: _ => !p c

/-- The suffix of `s` starting at the first occurrence of `c` (empty when `c`
does not occur); a description-side rendering of “from the first `c` on”. -/
def afterFirst (c : Char) (s : List Char) : List Char := s.dropWhile (fun x => x ≠ c)

/-- The prefix of `s` up to and including the last occurrence of `c` (empty
when `c` does not occur); a description-side rendering of “up to and
including the last `c`”. -/
def uptoLast (c : Char) (s : List Char) : List Char :=
  (s.reverse.dropWhile (fun x => x ≠ c)).reverse

/-- Validity domain of the amended C2 round trip: real (non-NaN) start and end
times within one day, and trimmed, non-blank, single-line text (neither a line
feed nor a carriage return occurs in it). -/
def validSeg (seg : SubtitleSegment) : Prop :=
  (∃ t : ℚ, seg.startTime = some t ∧ 0 ≤ t ∧ t < 86400) ∧
  (∃ t : ℚ, seg.endTime = some t ∧ 0 ≤ t ∧ t < 86400) ∧
  jsTrim seg.text = seg.text ∧ seg.text ≠ [] ∧ '\n' ∉ seg.text ∧ '\r' ∉ seg.text

/-- The body of one generated SRT block without its trailing newline, for a
segment whose text is already trimmed: index line, timecode line, text line. -/
def srtCore (index : ℕ) (seg : SubtitleSegment) : List Char :=
  natDigits (index + 1) ++
    '\n' :: ((formatSrtTime seg.startTime ++ (ls " --> " ++ formatSrtTime seg.endTime)) ++
      '\n' :: seg.text)

deriving instance DecidableEq for Except

/-- Claim C1: the claim says a zero-record parse yields the distinct
"no speech detected" error.  The code does throw that error inside the inner
`try`, but its own `catch (parseError)` clause intercepts the throw and
replaces it with the structural parse-failure error, so the surfaced error for
the response `"[]"` is the parse failure, contradicting the claim (and the
spec's intent, which the dedicated throw in the source demonstrates). -/
theorem claim_C1_no_speech_error_swallowed :
    interpretInner (sanitizeAndRepairJson (ls "[]")) =
      Except.error InnerThrow.noSpeechDetected ∧
    generateSubtitlesResult (ls "[]") = Except.error GenError.parseFailure ∧
    GenError.parseFailure ≠ GenError.noSpeech := by
  refine ⟨?_, ?_, ?_⟩ <;> decide

/-- Claim C8: the quantization step clamps each float sample to `[-1, 1]`
(out-of-range inputs saturate at the extreme codes), scales in-range
non-negative values by 32767 and negative ones by 32768, truncating toward
the representable integer, and the result always fits a signed 16-bit
integer. -/
theorem claim_C8_quantization (f : ℚ) :
    (1 ≤ f → quantizeSample f = 32767) ∧
    (f ≤ -1 → quantizeSample f = -32768) ∧
    (0 ≤ f → f ≤ 1 → quantizeSample f = ⌊f * 32767⌋) ∧
    (-1 ≤ f → f < 0 → quantizeSample f = ⌈f * 32768⌉) ∧
    (-32768 ≤ quantizeSample f ∧ quantizeSample f ≤ 32767) := by
  have hup : ∀ g : ℚ, 0 ≤ g → g ≤ 1 → quantizeSample g = ⌊g * 32767⌋ := by
    intro g h0 h1
    have hcl : jsClamp g = g := by
      simp only [jsClamp]
      rw [min_eq_right h1, max_eq_right (by linarith)]
    have hq : quantRaw g = g * 32767 := by
      simp only [quantRaw, hcl]
      rw [if_neg (by push_neg; positivity)]
    simp only [quantizeSample, hq, jsTrunc]
    rw [if_pos (by positivity)]
  have hdn : ∀ g : ℚ, -1 ≤ g → g < 0 → quantizeSample g = ⌈g * 32768⌉ := by
    intro g h0 h1
    have hcl : jsClamp g = g := by
      simp only [jsClamp]
      rw [min_eq_right (by linarith), max_eq_right h0]
    have hq : quantRaw g = g * 32768 := by
      simp only [quantRaw, hcl]
      rw [if_pos (by nlinarith)]
    simp only [quantizeSample, hq, jsTrunc]
    rw [if_neg (by push_neg; nlinarith), Int.floor_neg]
    ring
  have hhi : 1 ≤ f → quantizeSample f = 32767 := by
    intro h
    have hcl : jsClamp f = 1 := by
      simp only [jsClamp]
      rw [min_eq_left h, max_eq_right (by norm_num)]
    have hq : quantRaw f = 32767 := by
      simp only [quantRaw, hcl]
      rw [if_neg (by norm_num)]
      norm_num
    simp only [quantizeSample, hq, jsTrunc]
    rw [if_pos (by norm_num)]
    exact_mod_cast Int.floor_intCast 32767
  have hlo : f ≤ -1 → quantizeSample f = -32768 := by
    intro h
    have hcl : jsClamp f = -1 := by
      simp only [jsClamp]
      rw [min_eq_right (by linarith), max_eq_left h]
    have hq : quantRaw f = -32768 := by
      simp only [quantRaw, hcl]
      rw [if_pos (by norm_num)]
      norm_num
    simp only [quantizeSample, hq, jsTrunc]
    rw [if_neg (by norm_num)]
    norm_num
  refine ⟨hhi, hlo, hup f, hdn f, ?_⟩
  rcases le_or_lt 1 f with h1 | h1
  · rw [hhi h1]; constructor <;> norm_num
  · rcases le_or_lt 0 f with h0 | h0
    · rw [hup f h0 (le_of_lt h1)]
      have hnn : (0 : ℤ) ≤ ⌊f * 32767⌋ := Int.floor_nonneg.mpr (by positivity)
      have hle : ⌊f * 32767⌋ ≤ ⌊(32767 : ℚ)⌋ := Int.floor_le_floor (by nlinarith)
      have h37 : ⌊(32767 : ℚ)⌋ = 32767 := by
        rw [show (32767 : ℚ) = ((32767 : ℤ) : ℚ) by norm_num, Int.floor_intCast]
      omega
    · rcases le_or_lt (-1) f with hm | hm
      · rw [hdn f hm h0]
        have hge : ⌈(-32768 : ℚ)⌉ ≤ ⌈f * 32768⌉ := Int.ceil_le_ceil (by nlinarith)
        have hle : ⌈f * 32768⌉ ≤ ⌈(0 : ℚ)⌉ := Int.ceil_le_ceil (by nlinarith)
        have hc1 : ⌈(-32768 : ℚ)⌉ = -32768 := by
          rw [show (-32768 : ℚ) = ((-32768 : ℤ) : ℚ) by norm_num, Int.ceil_intCast]
        have hc2 : ⌈(0 : ℚ)⌉ = 0 := by norm_num
        omega
      · rw [hlo (le_of_lt hm)]; constructor <;> norm_num

/-- Witness for C8 at concrete samples: an in-range positive sample, and an
out-of-range negative sample that saturates. -/
theorem claim_C8_quantization_witness :
    quantizeSample (1/2) = 16383 ∧ quantizeSample (-2) = -32768 := by
  constructor
  · have h := (claim_C8_quantization (1/2)).2.2.1 (by norm_num) (by norm_num)
    rw [h]
    rw [show ((1 : ℚ)/2 * 32767) = 16383 + 1/2 by norm_num]
    rw [Int.floor_eq_iff]
    constructor <;> norm_num
  · exact (claim_C8_quantization (-2)).2.1 (by norm_num)

theorem wavHeader_expand (n : ℕ) :
    wavHeader n = [82, 73, 70, 70] ++ le4 ((36 + n * 2) % 4294967296) ++
      ([87, 65, 86, 69, 102, 109, 116, 32, 16, 0, 0, 0, 1, 0, 1, 0, 128, 62, 0, 0,
        0, 125, 0, 0, 2, 0, 16, 0, 100, 97, 116, 97] ++ le4 (n * 2 % 4294967296)) := by
  have h1 : (ls "RIFF").map Char.toNat = [82, 73, 70, 70] := by decide
  have h2 : (ls "WAVE").map Char.toNat = [87, 65, 86, 69] := by decide
  have h3 : (ls "fmt ").map Char.toNat = [102, 109, 116, 32] := by decide
  have h4 : (ls "data").map Char.toNat = [100, 97, 116, 97] := by decide
  have h5 : le4 16 = [16, 0, 0, 0] := by decide
  have h6 : le2 1 = [1, 0] := by decide
  have h7 : le4 16000 = [128, 62, 0, 0] := by decide
  have h8 : le4 32000 = [0, 125, 0, 0] := by decide
  have h9 : le2 2 = [2, 0] := by decide
  have h10 : le2 16 = [16, 0] := by decide
  simp [wavHeader, h1, h2, h3, h4, h5, h6, h7, h8, h9, h10]

theorem sampleBytes_flatten_length (samples : List ℚ) :
    ((samples.map sampleBytes).flatten).length = 2 * samples.length := by
  induction samples with
  | nil => simp
  | cons x xs ih =>
    simp only [List.map_cons, List.flatten_cons, List.length_append, ih,
      sampleBytes, le2, List.length_cons, List.length_nil]
    omega

/-- Claim C6: for a decodable input of duration `D` seconds (the host rendering
pass yields `trunc(D * 16000)` frames, stated as the hypothesis `hlen`), the
produced container is a 44-byte header followed by the PCM payload: the header
declares PCM format (1) at offset 20, 1 channel at 22, sample rate 16000 at
24, byte-rate 32000 at 28, block-align 2 at 32 and 16-bit depth at 34; the
payload consists of exactly the quantized little-endian 16-bit samples, two
bytes each, and the sample count is within one of `round(D × 16000)`. -/
theorem claim_C6_wav_container (D : ℚ) (samples : List ℚ)
    (hD : 0 ≤ D) (hsmall : D * 16000 < 4294967296)
    (hlen : samples.length = renderLength D) :
    (wavBytes samples).length = 44 + 2 * samples.length ∧
    (wavBytes samples).take 4 = [82, 73, 70, 70] ∧
    ((wavBytes samples).drop 8).take 4 = [87, 65, 86, 69] ∧
    ((wavBytes samples).drop 20).take 2 = [1, 0] ∧
    ((wavBytes samples).drop 22).take 2 = [1, 0] ∧
    ((wavBytes samples).drop 24).take 4 = [128, 62, 0, 0] ∧
    ((wavBytes samples).drop 28).take 4 = [0, 125, 0, 0] ∧
    ((wavBytes samples).drop 32).take 2 = [2, 0] ∧
    ((wavBytes samples).drop 34).take 2 = [16, 0] ∧
    (wavBytes samples).drop 44 = (samples.map sampleBytes).flatten ∧
    ((samples.map sampleBytes).flatten).length = 2 * samples.length ∧
    |(samples.length : ℤ) - round (D * 16000)| ≤ 1 := by
  have hexp := wavHeader_expand samples.length
  have hx : (0 : ℚ) ≤ D * 16000 := by positivity
  have htr : jsTrunc (D * 16000) = ⌊D * 16000⌋ := by simp [jsTrunc, hx]
  have hfl0 : (0 : ℤ) ≤ ⌊D * 16000⌋ := Int.floor_nonneg.mpr hx
  have hflu : ⌊D * 16000⌋ < 4294967296 := by
    have hle := Int.floor_le (D * 16000)
    exact_mod_cast lt_of_le_of_lt hle hsmall
  have hmod : Int.emod ⌊D * 16000⌋ 4294967296 = ⌊D * 16000⌋ :=
    Int.emod_eq_of_lt hfl0 hflu
  have hlen' : (samples.length : ℤ) = ⌊D * 16000⌋ := by
    rw [hlen, renderLength, htr, hmod]
    exact Int.toNat_of_nonneg hfl0
  have hr1 : ⌊D * 16000⌋ ≤ round (D * 16000) := by
    rw [round_eq]
    exact Int.floor_le_floor (by linarith)
  have hr2 : round (D * 16000) ≤ ⌊D * 16000⌋ + 1 := by
    rw [round_eq]
    have h2 : ⌊D * 16000 + (1 : ℚ)/2⌋ ≤ ⌊D * 16000 + 1⌋ := Int.floor_le_floor (by linarith)
    have h3 : ⌊D * 16000 + (1 : ℚ)⌋ = ⌊D * 16000⌋ + 1 := by
      rw [show (D * 16000 + (1 : ℚ)) = D * 16000 + ((1 : ℤ) : ℚ) by norm_num,
        Int.floor_add_int]
    omega
  refine ⟨?_, ?_, ?_, ?_, ?_, ?_, ?_, ?_, ?_, ?_, sampleBytes_flatten_length samples, ?_⟩
  · rw [wavBytes, List.length_append, sampleBytes_flatten_length, hexp]
    simp [le4]
  · rw [wavBytes, hexp]; simp [le4]
  · rw [wavBytes, hexp]; simp [le4]
  · rw [wavBytes, hexp]; simp [le4]
  · rw [wavBytes, hexp]; simp [le4]
  · rw [wavBytes, hexp]; simp [le4]
  · rw [wavBytes, hexp]; simp [le4]
  · rw [wavBytes, hexp]; simp [le4]
  · rw [wavBytes, hexp]; simp [le4]
  · rw [wavBytes, hexp]; simp [le4]
  · rw [hlen', abs_le]
    constructor <;> omega

/-- Witness for C6 at a concrete three-sample rendering of a 3/16000-second
input. -/
theorem claim_C6_wav_container_witness :
    (wavBytes [1/2, -1/2, 0]).length = 44 + 2 * ([(1 : ℚ)/2, -1/2, 0].length) ∧
    ((wavBytes [1/2, -1/2, 0]).drop 28).take 4 = [0, 125, 0, 0] ∧
    |(([(1 : ℚ)/2, -1/2, 0].length : ℤ)) - round ((3/16000 : ℚ) * 16000)| ≤ 1 := by
  have hlen : ([(1 : ℚ)/2, -1/2, 0].length) = renderLength (3/16000) := by
    rw [renderLength, show ((3/16000 : ℚ) * 16000) = 3 by norm_num]
    rw [show jsTrunc 3 = 3 by
      rw [jsTrunc, if_pos (by norm_num)]
      rw [show (3 : ℚ) = ((3 : ℤ) : ℚ) by norm_num, Int.floor_intCast]]
    decide
  have h := claim_C6_wav_container (3/16000) [1/2, -1/2, 0] (by norm_num) (by norm_num) hlen
  exact ⟨h.1, h.2.2.2.2.2.2.1, h.2.2.2.2.2.2.2.2.2.2.2⟩

theorem isDigitCh_toNat {c : Char} (h : isDigitCh c = true) : 48 ≤ c.toNat ∧ c.toNat ≤ 57 := by
  simp only [isDigitCh, Bool.and_eq_true, decide_eq_true_eq] at h
  exact h

theorem digit_ne {c : Char} (h : isDigitCh c = true) (d : Char)
    (hd : d.toNat < 48 ∨ 57 < d.toNat) : c ≠ d := by
  intro he
  subst he
  have := isDigitCh_toNat h
  omega

theorem digit_not_ws {c : Char} (h : isDigitCh c = true) : isJsWs c = false := by
  have hd := isDigitCh_toNat h
  simp only [isJsWs, Bool.or_eq_false_iff, decide_eq_false_iff_not]
  omega

theorem digitChar_toNat {d : ℕ} (h : d < 10) : (digitChar d).toNat = 48 + d := by
  interval_cases d <;> decide

theorem isDigitCh_digitChar {d : ℕ} (h : d < 10) : isDigitCh (digitChar d) = true := by
  interval_cases d <;> decide

theorem digitToNat_digitChar {d : ℕ} (h : d < 10) : digitToNat (digitChar d) = d := by
  interval_cases d <;> decide

theorem natDigitsAux_digits (fuel : ℕ) : ∀ n, ∀ c ∈ natDigitsAux fuel n, isDigitCh c = true := by
  induction fuel with
  | zero => intro n c hc; simp [natDigitsAux] at hc
  | succ fuel ih =>
    intro n c hc
    simp only [natDigitsAux] at hc
    split at hc
    · rename_i hn
      simp at hc
      subst hc
      exact isDigitCh_digitChar hn
    · rw [List.mem_append] at hc
      rcases hc with hc | hc
      · exact ih _ _ hc
      · simp at hc
        subst hc
        exact isDigitCh_digitChar (Nat.mod_lt _ (by norm_num))

theorem natDigits_digits {n : ℕ} : ∀ c ∈ natDigits n, isDigitCh c = true :=
  natDigitsAux_digits _ n

theorem padTo_digits {k : ℕ} {s : List Char} (hs : ∀ c ∈ s, isDigitCh c = true) :
    ∀ c ∈ padTo k s, isDigitCh c = true := by
  intro c hc
  rw [padTo, List.mem_append] at hc
  rcases hc with hc | hc
  · rw [List.eq_of_mem_replicate hc]
    decide
  · exact hs c hc

theorem pad2_digits {n : ℕ} : ∀ c ∈ pad2 n, isDigitCh c = true :=
  padTo_digits natDigits_digits

theorem pad3_digits {n : ℕ} : ∀ c ∈ pad3 n, isDigitCh c = true :=
  padTo_digits natDigits_digits

theorem digitsVal_append_single (a : List Char) (c : Char) :
    digitsVal (a ++ [c]) = 10 * digitsVal a + digitToNat c := by
  simp [digitsVal, List.foldl_append]

theorem digitsVal_natDigitsAux (fuel : ℕ) :
    ∀ n, n < 10 ^ fuel → digitsVal (natDigitsAux fuel n) = n := by
  induction fuel with
  | zero => intro n hn; interval_cases n; decide
  | succ fuel ih =>
    intro n hn
    simp only [natDigitsAux]
    split
    · rename_i h10
      show digitsVal [digitChar n] = n
      simp only [digitsVal, List.foldl_cons, List.foldl_nil, Nat.mul_zero, Nat.zero_add]
      exact digitToNat_digitChar h10
    · rename_i h10
      push_neg at h10
      have hdiv : n / 10 < 10 ^ fuel := by
        rw [Nat.div_lt_iff_lt_mul (by norm_num)]
        calc n < 10 ^ (fuel + 1) := hn
          _ = 10 ^ fuel * 10 := pow_succ 10 fuel
      rw [digitsVal_append_single, ih (n / 10) hdiv,
        digitToNat_digitChar (Nat.mod_lt _ (by norm_num))]
      omega

theorem digitsVal_natDigits (n : ℕ) : digitsVal (natDigits n) = n := by
  apply digitsVal_natDigitsAux
  calc n < 10 ^ n := Nat.lt_pow_self (by norm_num) n
    _ ≤ 10 ^ (n + 1) := Nat.pow_le_pow_right (by norm_num) (by omega)

theorem digitsVal_zero_prefix (k : ℕ) (l : List Char) :
    digitsVal (List.replicate k '0' ++ l) = digitsVal l := by
  induction k with
  | zero => simp
  | succ k ih =>
    rw [List.replicate_succ, List.cons_append]
    show List.foldl _ (10 * 0 + digitToNat '0') _ = _
    simpa [digitsVal] using ih

theorem digitsVal_padTo (k : ℕ) (s : List Char) : digitsVal (padTo k s) = digitsVal s :=
  digitsVal_zero_prefix _ _

theorem digitsVal_pad2 (n : ℕ) : digitsVal (pad2 n) = n := by
  rw [pad2, digitsVal_padTo, digitsVal_natDigits]

theorem digitsVal_pad3 (n : ℕ) : digitsVal (pad3 n) = n := by
  rw [pad3, digitsVal_padTo, digitsVal_natDigits]

theorem natDigitsAux_length_le (fuel : ℕ) :
    ∀ n k, n < 10 ^ k → 1 ≤ k → (natDigitsAux fuel n).length ≤ k := by
  induction fuel with
  | zero => intro n k _ _; simp [natDigitsAux]
  | succ fuel ih =>
    intro n k hn hk
    simp only [natDigitsAux]
    split
    · simpa using hk
    · rename_i h10
      push_neg at h10
      have hk2 : 2 ≤ k := by
        rcases Nat.lt_or_ge k 2 with hc | hc
        · have hk1 : k = 1 := by omega
          subst hk1
          simp at hn
          omega
        · exact hc
      have hdiv : n / 10 < 10 ^ (k - 1) := by
        rw [Nat.div_lt_iff_lt_mul (by norm_num)]
        calc n < 10 ^ k := hn
          _ = 10 ^ (k - 1) * 10 := by
            rw [← pow_succ]
            congr 1
            omega
      have := ih (n / 10) (k - 1) hdiv (by omega)
      simp only [List.length_append, List.length_cons, List.length_nil]
      omega

theorem padTo_length {k : ℕ} {s : List Char} (h : s.length ≤ k) : (padTo k s).length = k := by
  simp only [padTo, List.length_append, List.length_replicate]
  omega

theorem pad3_length {n : ℕ} (h : n < 1000) : (pad3 n).length = 3 := by
  apply padTo_length
  exact natDigitsAux_length_le _ n 3 (lt_of_lt_of_eq h (by norm_num)) (by norm_num)

theorem takeWhile_all {p : Char → Bool} {l : List Char} (h : ∀ c ∈ l, p c = true) :
    l.takeWhile p = l := by
  induction l with
  | nil => rfl
  | cons c cs ih =>
    rw [List.takeWhile_cons, h c (by simp)]
    simp [ih (fun x hx => h x (by simp [hx]))]

theorem dropWhile_all {p : Char → Bool} {l : List Char} (h : ∀ c ∈ l, p c = true) :
    l.dropWhile p = [] := by
  induction l with
  | nil => rfl
  | cons c cs ih =>
    rw [List.dropWhile_cons, h c (by simp)]
    simp [ih (fun x hx => h x (by simp [hx]))]

theorem takeWhile_append_fails {p : Char → Bool} {a r : List Char}
    (ha : ∀ c ∈ a, p c = true) (hr : headFails p r = true) :
    (a ++ r).takeWhile p = a := by
  induction a with
  | nil =>
    cases r with
    | nil => rfl
    | cons c cs =>
      simp only [headFails, Bool.not_eq_true'] at hr
      simp [List.takeWhile_cons, hr]
  | cons c cs ih =>
    rw [List.cons_append, List.takeWhile_cons, ha c (by simp)]
    simp [ih (fun x hx => ha x (by simp [hx]))]

theorem dropWhile_append_fails {p : Char → Bool} {a r : List Char}
    (ha : ∀ c ∈ a, p c = true) (hr : headFails p r = true) :
    (a ++ r).dropWhile p = r := by
  induction a with
  | nil =>
    cases r with
    | nil => rfl
    | cons c cs =>
      simp only [headFails, Bool.not_eq_true'] at hr
      simp [List.dropWhile_cons, hr]
  | cons c cs ih =>
    rw [List.cons_append, List.dropWhile_cons, ha c (by simp)]
    simp [ih (fun x hx => ha x (by simp [hx]))]

theorem parseNatPart_split {a r : List Char} (ha : ∀ c ∈ a, isDigitCh c = true)
    (hne : a ≠ []) (hr : headFails isDigitCh r = true) :
    parseNatPart (a ++ r) = some (digitsVal a, r) := by
  rw [parseNatPart]
  simp only [takeWhile_append_fails ha hr, dropWhile_append_fails ha hr]
  rw [if_neg (by simpa [List.isEmpty_iff] using hne)]

theorem jsParseInt_digits {a r : List Char} (ha : ∀ c ∈ a, isDigitCh c = true)
    (hne : a ≠ []) (hr : headFails isDigitCh r = true) :
    jsParseInt (a ++ r) = some ((digitsVal a : ℚ)) := by
  cases a with
  | nil => exact absurd rfl hne
  | cons c a2 =>
    have hc : isDigitCh c = true := ha c (by simp)
    have hforall : ∀ x ∈ a2, isDigitCh x = true := fun x hx => ha x (by simp [hx])
    rw [jsParseInt]
    simp only [List.cons_append, List.dropWhile_cons, digit_not_ws hc, Bool.false_eq_true,
      if_false]
    rw [if_neg (digit_ne hc '-' (by left; decide)), if_neg (digit_ne hc '+' (by left; decide))]
    rw [← List.cons_append, parseNatPart_split ha (by simp) hr]
    rfl

theorem jsParseFloat_digits_frac {c f : List Char} (hc : ∀ x ∈ c, isDigitCh x = true)
    (hcne : c ≠ []) (hf : ∀ x ∈ f, isDigitCh x = true) :
    jsParseFloat (c ++ '.' :: f) = some ((digitsVal c : ℚ) + fracQ f) := by
  cases c with
  | nil => exact absurd rfl hcne
  | cons x c2 =>
    have hx : isDigitCh x = true := hc x (by simp)
    rw [jsParseFloat]
    simp only [List.cons_append, List.dropWhile_cons, digit_not_ws hx, Bool.false_eq_true,
      if_false]
    rw [if_neg (digit_ne hx '-' (by left; decide)), if_neg (digit_ne hx '+' (by left; decide))]
    rw [jsParseFloatCore, ← List.cons_append,
      parseNatPart_split hc (by simp) (by simp only [headFails]; decide)]
    simp only [if_pos rfl]
    rw [takeWhile_all hf, dropWhile_all hf]
    rfl

theorem splitOnChar_no_sep {c : Char} {l : List Char} (h : ∀ x ∈ l, x ≠ c) :
    splitOnChar c l = [l] := by
  induction l with
  | nil => rfl
  | cons x xs ih =>
    rw [splitOnChar, if_neg (h x (by simp)), ih (fun y hy => h y (by simp [hy]))]

theorem splitOnChar_append {c : Char} {a r : List Char} (ha : ∀ x ∈ a, x ≠ c) :
    splitOnChar c (a ++ c :: r) = a :: splitOnChar c r := by
  induction a with
  | nil => simp [splitOnChar]
  | cons x xs ih =>
    rw [List.cons_append, splitOnChar, if_neg (ha x (by simp)),
      ih (fun y hy => ha y (by simp [hy]))]

theorem replaceFirstChar_no_occ {c d : Char} {l : List Char} (h : ∀ x ∈ l, x ≠ c) :
    replaceFirstChar c d l = l := by
  induction l with
  | nil => rfl
  | cons x xs ih =>
    rw [replaceFirstChar, if_neg (h x (by simp)), ih (fun y hy => h y (by simp [hy]))]

theorem replaceFirstChar_append {c d : Char} {a r : List Char} (ha : ∀ x ∈ a, x ≠ c) :
    replaceFirstChar c d (a ++ c :: r) = a ++ d :: r := by
  induction a with
  | nil => simp [replaceFirstChar]
  | cons x xs ih =>
    rw [List.cons_append, replaceFirstChar, if_neg (ha x (by simp)),
      ih (fun y hy => ha y (by simp [hy])), List.cons_append]

theorem jsParseInt_digits_only {a : List Char} (ha : ∀ c ∈ a, isDigitCh c = true)
    (hne : a ≠ []) : jsParseInt a = some ((digitsVal a : ℚ)) := by
  have h := jsParseInt_digits ha hne (r := []) rfl
  simpa using h

theorem natDigits_ne (n : ℕ) : natDigits n ≠ [] := by
  rw [natDigits, natDigitsAux]
  split
  · simp
  · simp

theorem pad2_ne (n : ℕ) : pad2 n ≠ [] := by
  rw [pad2, padTo]
  intro h
  rcases List.append_eq_nil.mp h with ⟨_, h2⟩
  exact natDigits_ne n h2

theorem mem_three_form {A B C F : List Char} {sep : Char} {x : Char}
    (hx : x ∈ A ++ (':' :: (B ++ (':' :: (C ++ (sep :: F)))))) :
    x ∈ A ∨ x = ':' ∨ x ∈ B ∨ x ∈ C ∨ x = sep ∨ x ∈ F := by
  simp only [List.mem_append, List.mem_cons] at hx
  tauto

theorem mem_two_form {A C F : List Char} {sep : Char} {x : Char}
    (hx : x ∈ A ++ (':' :: (C ++ (sep :: F)))) :
    x ∈ A ∨ x = ':' ∨ x ∈ C ∨ x = sep ∨ x ∈ F := by
  simp only [List.mem_append, List.mem_cons] at hx
  tauto

theorem mem_pre_form {A B C : List Char} {x : Char}
    (hx : x ∈ A ++ (':' :: (B ++ (':' :: C)))) :
    x ∈ A ∨ x = ':' ∨ x ∈ B ∨ x ∈ C := by
  simp only [List.mem_append, List.mem_cons] at hx
  tauto

theorem mem_last_form {C F : List Char} {x : Char} (hx : x ∈ C ++ ('.' :: F)) :
    x ∈ C ∨ x = '.' ∨ x ∈ F := by
  simp only [List.mem_append, List.mem_cons] at hx
  tauto

theorem parseTimeString_three {A B C F : List Char} {sep : Char}
    (hA : ∀ x ∈ A, isDigitCh x = true) (hAne : A ≠ [])
    (hB : ∀ x ∈ B, isDigitCh x = true) (hBne : B ≠ [])
    (hC : ∀ x ∈ C, isDigitCh x = true) (hCne : C ≠ [])
    (hF : ∀ x ∈ F, isDigitCh x = true)
    (hsep : sep = '.' ∨ sep = ',') :
    parseTimeString (A ++ (':' :: (B ++ (':' :: (C ++ (sep :: F)))))) =
      some ((digitsVal A : ℚ) * 3600 + (digitsVal B : ℚ) * 60 + (digitsVal C : ℚ) + fracQ F) := by
  have hemp : (A ++ (':' :: (B ++ (':' :: (C ++ (sep :: F)))))).isEmpty = false := by
    cases A with
    | nil => exact absurd rfl hAne
    | cons a as => rfl
  have hrepl : replaceFirstChar ',' '.' (A ++ (':' :: (B ++ (':' :: (C ++ (sep :: F)))))) =
      A ++ (':' :: (B ++ (':' :: (C ++ ('.' :: F))))) := by
    rcases hsep with h | h
    · subst h
      apply replaceFirstChar_no_occ
      intro x hx
      rcases mem_three_form hx with h | h | h | h | h | h
      · exact digit_ne (hA x h) ',' (by left; decide)
      · subst h; decide
      · exact digit_ne (hB x h) ',' (by left; decide)
      · exact digit_ne (hC x h) ',' (by left; decide)
      · subst h; decide
      · exact digit_ne (hF x h) ',' (by left; decide)
    · subst h
      have hassoc : A ++ (':' :: (B ++ (':' :: (C ++ (',' :: F))))) =
          (A ++ (':' :: (B ++ (':' :: C)))) ++ (',' :: F) := by
        simp
      have hassoc2 : A ++ (':' :: (B ++ (':' :: (C ++ ('.' :: F))))) =
          (A ++ (':' :: (B ++ (':' :: C)))) ++ ('.' :: F) := by
        simp
      rw [hassoc, hassoc2]
      apply replaceFirstChar_append
      intro x hx
      rcases mem_pre_form hx with h | h | h | h
      · exact digit_ne (hA x h) ',' (by left; decide)
      · subst h; decide
      · exact digit_ne (hB x h) ',' (by left; decide)
      · exact digit_ne (hC x h) ',' (by left; decide)
  have hsplit : splitOnChar ':' (A ++ (':' :: (B ++ (':' :: (C ++ ('.' :: F)))))) =
      [A, B, C ++ ('.' :: F)] := by
    rw [splitOnChar_append (fun x h => digit_ne (hA x h) ':' (by right; decide)),
      splitOnChar_append (fun x h => digit_ne (hB x h) ':' (by right; decide)),
      splitOnChar_no_sep]
    intro x hx
    rcases mem_last_form hx with h | h | h
    · exact digit_ne (hC x h) ':' (by right; decide)
    · subst h; decide
    · exact digit_ne (hF x h) ':' (by right; decide)
  simp only [parseTimeString, hemp, Bool.false_eq_true, if_false, hrepl, hsplit]
  rw [jsParseInt_digits_only hA hAne, jsParseInt_digits_only hB hBne,
    jsParseFloat_digits_frac hC hCne hF]
  simp only [jsMulNat, jsAdd, Option.map_some']
  norm_num
  ring

theorem parseTimeString_two {A C F : List Char} {sep : Char}
    (hA : ∀ x ∈ A, isDigitCh x = true) (hAne : A ≠ [])
    (hC : ∀ x ∈ C, isDigitCh x = true) (hCne : C ≠ [])
    (hF : ∀ x ∈ F, isDigitCh x = true)
    (hsep : sep = '.' ∨ sep = ',') :
    parseTimeString (A ++ (':' :: (C ++ (sep :: F)))) =
      some ((digitsVal A : ℚ) * 60 + (digitsVal C : ℚ) + fracQ F) := by
  have hemp : (A ++ (':' :: (C ++ (sep :: F)))).isEmpty = false := by
    cases A with
    | nil => exact absurd rfl hAne
    | cons a as => rfl
  have hrepl : replaceFirstChar ',' '.' (A ++ (':' :: (C ++ (sep :: F)))) =
      A ++ (':' :: (C ++ ('.' :: F))) := by
    rcases hsep with h | h
    · subst h
      apply replaceFirstChar_no_occ
      intro x hx
      rcases mem_two_form hx with h | h | h | h | h
      · exact digit_ne (hA x h) ',' (by left; decide)
      · subst h; decide
      · exact digit_ne (hC x h) ',' (by left; decide)
      · subst h; decide
      · exact digit_ne (hF x h) ',' (by left; decide)
    · subst h
      have hassoc : A ++ (':' :: (C ++ (',' :: F))) = (A ++ (':' :: C)) ++ (',' :: F) := by
        simp
      have hassoc2 : A ++ (':' :: (C ++ ('.' :: F))) = (A ++ (':' :: C)) ++ ('.' :: F) := by
        simp
      rw [hassoc, hassoc2]
      apply replaceFirstChar_append
      intro x hx
      simp only [List.mem_append, List.mem_cons] at hx
      rcases hx with h | h | h
      · exact digit_ne (hA x h) ',' (by left; decide)
      · subst h; decide
      · exact digit_ne (hC x h) ',' (by left; decide)
  have hsplit : splitOnChar ':' (A ++ (':' :: (C ++ ('.' :: F)))) = [A, C ++ ('.' :: F)] := by
    rw [splitOnChar_append (fun x h => digit_ne (hA x h) ':' (by right; decide)),
      splitOnChar_no_sep]
    intro x hx
    rcases mem_last_form hx with h | h | h
    · exact digit_ne (hC x h) ':' (by right; decide)
    · subst h; decide
    · exact digit_ne (hF x h) ':' (by right; decide)
  simp only [parseTimeString, hemp, Bool.false_eq_true, if_false, hrepl, hsplit]
  rw [jsParseInt_digits_only hA hAne, jsParseFloat_digits_frac hC hCne hF]
  simp only [jsMulNat, jsAdd, Option.map_some']
  norm_num
  ring

theorem fdivmod_toNat (N a b : ℕ) :
    (Int.fmod (Int.fdiv ((N : ℕ) : ℤ) ((a : ℕ) : ℤ)) ((b : ℕ) : ℤ)).toNat = N / a % b := by
  rw [← Int.ofNat_fdiv, ← Int.ofNat_fmod]
  norm_cast

theorem fmod_toNat (N b : ℕ) :
    (Int.fmod ((N : ℕ) : ℤ) ((b : ℕ) : ℤ)).toNat = N % b := by
  rw [← Int.ofNat_fmod]
  norm_cast

theorem fdivmod_toNat_3600000 (N : ℕ) :
    (Int.fmod (Int.fdiv ((N : ℕ) : ℤ) 3600000) 24).toNat = N / 3600000 % 24 := by
  exact_mod_cast fdivmod_toNat N 3600000 24

theorem fdivmod_toNat_60000 (N : ℕ) :
    (Int.fmod (Int.fdiv ((N : ℕ) : ℤ) 60000) 60).toNat = N / 60000 % 60 := by
  exact_mod_cast fdivmod_toNat N 60000 60

theorem fdivmod_toNat_1000 (N : ℕ) :
    (Int.fmod (Int.fdiv ((N : ℕ) : ℤ) 1000) 60).toNat = N / 1000 % 60 := by
  exact_mod_cast fdivmod_toNat N 1000 60

theorem fmod_toNat_1000 (N : ℕ) : (Int.fmod ((N : ℕ) : ℤ) 1000).toNat = N % 1000 := by
  exact_mod_cast fmod_toNat N 1000

theorem formatSrtTime_nonneg (q : ℚ) (h0 : 0 ≤ q) :
    formatSrtTime (some q) =
      pad2 ((⌊q * 1000⌋).toNat / 3600000 % 24) ++
        (':' :: (pad2 ((⌊q * 1000⌋).toNat / 60000 % 60) ++
          (':' :: (pad2 ((⌊q * 1000⌋).toNat / 1000 % 60) ++
            (',' :: pad3 ((⌊q * 1000⌋).toNat % 1000)))))) := by
  have hq : 0 ≤ q * 1000 := by positivity
  have hfl : 0 ≤ ⌊q * 1000⌋ := Int.floor_nonneg.mpr hq
  set N := (⌊q * 1000⌋).toNat with hN
  have hcast : ⌊q * 1000⌋ = ((N : ℕ) : ℤ) := (Int.toNat_of_nonneg hfl).symm
  rw [formatSrtTime, jsTrunc, if_pos hq, hcast]
  simp only [fdivmod_toNat_3600000, fdivmod_toNat_60000, fdivmod_toNat_1000, fmod_toNat_1000]
  simp [List.append_assoc]

theorem parseTimeString_formatSrtTime {q : ℚ} (h0 : 0 ≤ q) (hlt : q < 86400) :
    parseTimeString (formatSrtTime (some q)) = some ((⌊q * 1000⌋ : ℚ) / 1000) := by
  have hq : 0 ≤ q * 1000 := by positivity
  have hfl : 0 ≤ ⌊q * 1000⌋ := Int.floor_nonneg.mpr hq
  set N := (⌊q * 1000⌋).toNat with hN
  have hNlt : N < 86400000 := by
    have h1 : (⌊q * 1000⌋ : ℚ) ≤ q * 1000 := Int.floor_le _
    have h2 : ⌊q * 1000⌋ < 86400000 := by
      by_contra hcon
      push_neg at hcon
      have h3 : (86400000 : ℚ) ≤ (⌊q * 1000⌋ : ℚ) := by exact_mod_cast hcon
      linarith
    omega
  rw [formatSrtTime_nonneg q h0, ← hN]
  rw [parseTimeString_three pad2_digits (pad2_ne _) pad2_digits (pad2_ne _) pad2_digits
    (pad2_ne _) pad3_digits (Or.inr rfl)]
  have hfr : fracQ (pad3 (N % 1000)) = ((N % 1000 : ℕ) : ℚ) / 1000 := by
    rw [fracQ, digitsVal_pad3, pad3_length (Nat.mod_lt _ (by norm_num))]
    norm_num
  rw [hfr, digitsVal_pad2, digitsVal_pad2, digitsVal_pad2]
  have hval : (⌊q * 1000⌋ : ℚ) = (N : ℚ) := by
    rw [hN]
    exact_mod_cast (congrArg (fun z : ℤ => (z : ℚ)) (Int.toNat_of_nonneg hfl)).symm
  rw [hval, Nat.mod_eq_of_lt (show N / 3600000 < 24 by omega)]
  congr 1
  have hnat : (N / 3600000) * 3600000 + (N / 60000 % 60) * 60000 +
      (N / 1000 % 60) * 1000 + N % 1000 = N := by omega
  have hq2 : ((N / 3600000 : ℕ) : ℚ) * 3600000 + ((N / 60000 % 60 : ℕ) : ℚ) * 60000 +
      ((N / 1000 % 60 : ℕ) : ℚ) * 1000 + ((N % 1000 : ℕ) : ℚ) = (N : ℚ) := by
    exact_mod_cast congrArg (fun k : ℕ => (k : ℚ)) hnat
  field_simp
  linarith [hq2]

/-- Claim C5 (amended): for every non-negative `x` BELOW ONE DAY (86400 s),
`parseTimeString (formatSrtTime x)` returns `x` truncated to the millisecond,
hence agrees with `x` to millisecond precision.  The restriction to less than
24 hours is forced: the formatter extracts hours with `getUTCHours`, which
wraps modulo 24 (see the counterexample at exactly 86400 s). -/
theorem claim_C5_time_roundtrip (x : ℚ) (h0 : 0 ≤ x) (hlt : x < 86400) :
    parseTimeString (formatSrtTime (some x)) = some ((⌊x * 1000⌋ : ℚ) / 1000) ∧
    ∀ y : ℚ, parseTimeString (formatSrtTime (some x)) = some y → |y - x| < 1/1000 := by
  refine ⟨parseTimeString_formatSrtTime h0 hlt, ?_⟩
  intro y hy
  rw [parseTimeString_formatSrtTime h0 hlt] at hy
  have hyv : y = (⌊x * 1000⌋ : ℚ) / 1000 := (Option.some.injEq _ _).mp hy.symm
  subst hyv
  have hb1 : (⌊x * 1000⌋ : ℚ) ≤ x * 1000 := Int.floor_le _
  have hb2 : x * 1000 - 1 < (⌊x * 1000⌋ : ℚ) := Int.sub_one_lt_floor _
  rw [abs_lt]
  constructor <;> linarith

/-- Counterexample to claim C5 as stated: at `x = 86400` (24 hours) the
formatter wraps the hour field modulo 24, so the round trip yields 0 rather
than a value within a millisecond of `x`. -/
theorem claim_C5_counterexample :
    parseTimeString (formatSrtTime (some (86400 : ℚ))) = some 0 ∧
    ¬ |(0 : ℚ) - 86400| < 1/1000 := by
  constructor
  · have hNv : ((⌊(86400 : ℚ) * 1000⌋).toNat) = 86400000 := by
      rw [show ((86400 : ℚ) * 1000) = ((86400000 : ℤ) : ℚ) by norm_num, Int.floor_intCast]
      rfl
    rw [formatSrtTime_nonneg 86400 (by norm_num), hNv]
    norm_num
    rw [parseTimeString_three pad2_digits (pad2_ne _) pad2_digits (pad2_ne _) pad2_digits
      (pad2_ne _) pad3_digits (Or.inr rfl)]
    simp only [digitsVal_pad2, fracQ, digitsVal_pad3]
    norm_num
  · rw [abs_lt]
    push_neg
    intro h
    linarith

/-- Witness for the amended C5 at `x = 3/2`: the round trip is exact on a
whole-millisecond value. -/
theorem claim_C5_time_roundtrip_witness :
    parseTimeString (formatSrtTime (some ((3 : ℚ)/2))) = some ((3 : ℚ)/2) := by
  have h := (claim_C5_time_roundtrip (3/2) (by norm_num) (by norm_num)).1
  rw [h, show ((3 : ℚ)/2 * 1000) = ((1500 : ℤ) : ℚ) by norm_num, Int.floor_intCast]
  norm_num

/-- Claim C7: `parseTimeString` accepts `MM:SS.mmm` and `HH:MM:SS.mmm` forms
with either separator (a comma decimal separator is normalized to a period),
splits on `:`, treats the first of three components as hours and the first of
two as minutes, and returns total seconds; in particular `"01:02.500"` yields
62.5 and `"00:05,250"` yields 5.25. -/
theorem claim_C7_time_parsing :
    (∀ A B C F : List Char, ∀ sep : Char,
      (∀ x ∈ A, isDigitCh x = true) → A ≠ [] →
      (∀ x ∈ B, isDigitCh x = true) → B ≠ [] →
      (∀ x ∈ C, isDigitCh x = true) → C ≠ [] →
      (∀ x ∈ F, isDigitCh x = true) → (sep = '.' ∨ sep = ',') →
      parseTimeString (A ++ (':' :: (B ++ (':' :: (C ++ (sep :: F)))))) =
        some ((digitsVal A : ℚ) * 3600 + (digitsVal B : ℚ) * 60 + (digitsVal C : ℚ) + fracQ F)) ∧
    (∀ A C F : List Char, ∀ sep : Char,
      (∀ x ∈ A, isDigitCh x = true) → A ≠ [] →
      (∀ x ∈ C, isDigitCh x = true) → C ≠ [] →
      (∀ x ∈ F, isDigitCh x = true) → (sep = '.' ∨ sep = ',') →
      parseTimeString (A ++ (':' :: (C ++ (sep :: F)))) =
        some ((digitsVal A : ℚ) * 60 + (digitsVal C : ℚ) + fracQ F)) ∧
    parseTimeString (ls "01:02.500") = some (62.5 : ℚ) ∧
    parseTimeString (ls "00:05,250") = some (5.25 : ℚ) := by
  refine ⟨fun A B C F sep hA hAne hB hBne hC hCne hF hsep =>
      parseTimeString_three hA hAne hB hBne hC hCne hF hsep,
    fun A C F sep hA hAne hC hCne hF hsep =>
      parseTimeString_two hA hAne hC hCne hF hsep, ?_, ?_⟩
  · rw [show ls "01:02.500" = ['0', '1'] ++ (':' :: (['0', '2'] ++ ('.' :: ['5', '0', '0'])))
      from by decide]
    rw [parseTimeString_two (by decide) (by decide) (by decide) (by decide) (by decide)
      (Or.inl rfl)]
    rw [show digitsVal ['0', '1'] = 1 from by decide,
      show digitsVal ['0', '2'] = 2 from by decide, fracQ,
      show digitsVal ['5', '0', '0'] = 500 from by decide]
    norm_num
  · rw [show ls "00:05,250" = ['0', '0'] ++ (':' :: (['0', '5'] ++ (',' :: ['2', '5', '0'])))
      from by decide]
    rw [parseTimeString_two (by decide) (by decide) (by decide) (by decide) (by decide)
      (Or.inr rfl)]
    rw [show digitsVal ['0', '0'] = 0 from by decide,
      show digitsVal ['0', '5'] = 5 from by decide, fracQ,
      show digitsVal ['2', '5', '0'] = 250 from by decide]
    norm_num

/-- Witness for C7's universal part at the concrete timestamp `10:20:30.` -/
theorem claim_C7_time_parsing_witness :
    parseTimeString (['1', '0'] ++ (':' :: (['2', '0'] ++ (':' :: (['3', '0'] ++ ('.' :: [])))))) =
      some (37230 : ℚ) := by
  have h := claim_C7_time_parsing.1 ['1', '0'] ['2', '0'] ['3', '0'] [] '.'
    (by decide) (by decide) (by decide) (by decide) (by decide) (by decide) (by decide)
    (Or.inl rfl)
  rw [h, show digitsVal ['1', '0'] = 10 from by decide,
    show digitsVal ['2', '0'] = 20 from by decide,
    show digitsVal ['3', '0'] = 30 from by decide, fracQ,
    show digitsVal [] = 0 from by decide]
  norm_num

/-- Claim C4 (amended): `parseTimeString` silently returns 0 not only for a
missing (empty) string but also for any non-empty string whose colon-split
yields a component count other than 2 or 3 (e.g. `"abc"`); for strings with 2
or 3 components it propagates NaN exactly when one of the numeric component
parses fails. -/
theorem claim_C4_zero_vs_nan (s : List Char) (hne : s ≠ []) :
    (parseTimeString [] = some 0) ∧
    (∀ p0 p1 p2 : List Char, splitOnChar ':' (replaceFirstChar ',' '.' s) = [p0, p1, p2] →
      (parseTimeString s = none ↔
        jsParseInt p0 = none ∨ jsParseInt p1 = none ∨ jsParseFloat p2 = none)) ∧
    (∀ p0 p1 : List Char, splitOnChar ':' (replaceFirstChar ',' '.' s) = [p0, p1] →
      (parseTimeString s = none ↔ jsParseInt p0 = none ∨ jsParseFloat p1 = none)) ∧
    ((splitOnChar ':' (replaceFirstChar ',' '.' s)).length ≠ 2 →
      (splitOnChar ':' (replaceFirstChar ',' '.' s)).length ≠ 3 →
      parseTimeString s = some 0) := by
  have hemp : s.isEmpty = false := by
    cases s with
    | nil => exact absurd rfl hne
    | cons a as => rfl
  refine ⟨by decide, ?_, ?_, ?_⟩
  · intro p0 p1 p2 hsplit
    simp only [parseTimeString, hemp, Bool.false_eq_true, if_false, hsplit]
    cases h0 : jsParseInt p0 <;> cases h1 : jsParseInt p1 <;> cases h2 : jsParseFloat p2 <;>
      simp [jsAdd, jsMulNat]
  · intro p0 p1 hsplit
    simp only [parseTimeString, hemp, Bool.false_eq_true, if_false, hsplit]
    cases h0 : jsParseInt p0 <;> cases h1 : jsParseFloat p1 <;>
      simp [jsAdd, jsMulNat]
  · intro h2 h3
    simp only [parseTimeString, hemp, Bool.false_eq_true, if_false]
    rcases hp : splitOnChar ':' (replaceFirstChar ',' '.' s) with _ | ⟨p0, _ | ⟨p1, _ | ⟨p2, rest⟩⟩⟩
    · rfl
    · rfl
    · rw [hp] at h2
      simp at h2
    · cases rest with
      | nil =>
        rw [hp] at h3
        simp at h3
      | cons p3 rest2 => rfl

/-- Counterexample to claim C4 as stated: the non-empty malformed input
`"abc"` has a single colon-component, so the conversion falls through both
component-count branches and silently returns 0 instead of propagating NaN. -/
theorem claim_C4_counterexample :
    ls "abc" ≠ [] ∧ parseTimeString (ls "abc") = some 0 := by
  constructor
  · decide
  · rfl

/-- Witness for the amended C4: a two-component string with non-numeric
components does propagate NaN. -/
theorem claim_C4_zero_vs_nan_witness : parseTimeString (ls "ab:cd") = none := by
  have h := (claim_C4_zero_vs_nan (ls "ab:cd") (by decide)).2.2.1 ['a', 'b'] ['c', 'd']
    (by decide)
  exact h.mpr (Or.inl (by decide))

theorem splitOnSepAux_congr (c : Char) (cs : List Char) :
    ∀ fuel fuel' s, s.length ≤ fuel → s.length ≤ fuel' →
      splitOnSepAux c cs fuel s = splitOnSepAux c cs fuel' s := by
  intro fuel
  induction fuel with
  | zero =>
    intro fuel' s hs hs'
    have hnil : s = [] := List.length_eq_zero.mp (Nat.le_zero.mp hs)
    subst hnil
    cases fuel' with
    | zero => rfl
    | succ f =>
      show _ = splitOnSepAux c cs (f + 1) []
      simp [splitOnSepAux, findSubstr, leadsWith]
  | succ fuel ih =>
    intro fuel' s hs hs'
    cases fuel' with
    | zero =>
      have hnil : s = [] := List.length_eq_zero.mp (Nat.le_zero.mp hs')
      subst hnil
      show splitOnSepAux c cs (fuel + 1) [] = _
      simp [splitOnSepAux, findSubstr, leadsWith]
    | succ f =>
      show splitOnSepAux c cs (fuel + 1) s = splitOnSepAux c cs (f + 1) s
      cases hfs : findSubstr (c :: cs) s with
      | none => simp only [splitOnSepAux, hfs]
      | some i =>
        cases s with
        | nil =>
          simp only [findSubstr, show leadsWith (c :: cs) [] = false from rfl,
            Bool.false_eq_true, if_false] at hfs
          exact Option.noConfusion hfs
        | cons x xs =>
          simp only [splitOnSepAux, hfs]
          congr 1
          apply ih
          · simp only [List.length_drop, List.length_cons]
            simp only [List.length_cons] at hs
            omega
          · simp only [List.length_drop, List.length_cons]
            simp only [List.length_cons] at hs'
            omega

theorem splitOnSep_of_none {c : Char} {cs s : List Char}
    (h : findSubstr (c :: cs) s = none) : splitOnSep c cs s = [s] := by
  rw [splitOnSep]
  cases hl : s.length with
  | zero => rfl
  | succ m =>
    show splitOnSepAux c cs (m + 1) s = [s]
    simp [splitOnSepAux, h]

theorem splitOnSep_of_some {c : Char} {cs s : List Char} {i : ℕ}
    (h : findSubstr (c :: cs) s = some i) :
    splitOnSep c cs s = s.take i :: splitOnSep c cs (s.drop (i + (cs.length + 1))) := by
  rw [splitOnSep, splitOnSep]
  cases s with
  | nil =>
    simp only [findSubstr, show leadsWith (c :: cs) [] = false from rfl,
      Bool.false_eq_true, if_false] at h
    exact Option.noConfusion h
  | cons x xs =>
    show splitOnSepAux c cs (xs.length + 1) (x :: xs) = _
    simp only [splitOnSepAux, h]
    congr 1
    apply splitOnSepAux_congr
    · simp only [List.length_drop, List.length_cons]
      omega
    · exact le_refl _

theorem leadsWith_iff {p s : List Char} : leadsWith p s = true ↔ ∃ r, s = p ++ r := by
  induction p generalizing s with
  | nil => simp [leadsWith]
  | cons a ps ih =>
    cases s with
    | nil => simp [leadsWith]
    | cons c cs =>
      simp only [leadsWith, Bool.and_eq_true, decide_eq_true_eq, ih]
      constructor
      · rintro ⟨rfl, r, rfl⟩
        exact ⟨r, rfl⟩
      · rintro ⟨r, h⟩
        rw [List.cons_append] at h
        injection h with h1 h2
        exact ⟨h1.symm, r, h2⟩

theorem findSubstr_some_of_decomp (pat a b : List Char) :
    ∃ i, findSubstr pat (a ++ (pat ++ b)) = some i := by
  induction a with
  | nil =>
    refine ⟨0, ?_⟩
    cases hpb : pat ++ b with
    | nil => simp [findSubstr, leadsWith_iff.mpr ⟨b, hpb.symm⟩]
    | cons x xs => simp [findSubstr, leadsWith_iff.mpr ⟨b, hpb.symm⟩]
  | cons x xs ih =>
    rcases ih with ⟨i, hi⟩
    by_cases h : leadsWith pat (x :: (xs ++ (pat ++ b))) = true
    · exact ⟨0, by simp [findSubstr, h]⟩
    · exact ⟨i + 1, by simp [findSubstr, h, hi]⟩

theorem findSubstr_some_decomp {pat s : List Char} {i : ℕ} (h : findSubstr pat s = some i) :
    ∃ a b, s = a ++ (pat ++ b) ∧ a.length = i := by
  induction s generalizing i with
  | nil =>
    simp only [findSubstr] at h
    split at h
    · rename_i hp
      cases h
      rcases leadsWith_iff.mp hp with ⟨r, hr⟩
      exact ⟨[], r, by simpa using hr, rfl⟩
    · cases h
  | cons x xs ih =>
    simp only [findSubstr] at h
    split at h
    · rename_i hp
      cases h
      rcases leadsWith_iff.mp hp with ⟨r, hr⟩
      exact ⟨[], r, by simpa using hr, rfl⟩
    · cases hfs : findSubstr pat xs with
      | none => rw [hfs] at h; cases h
      | some j =>
        rw [hfs] at h
        simp at h
        rcases ih hfs with ⟨a, b, hab, hlen⟩
        refine ⟨x :: a, b, ?_, ?_⟩
        · rw [List.cons_append, hab]
        · simp [hlen, ← h]

theorem findSubstr_none_no_decomp {pat s : List Char} (h : findSubstr pat s = none)
    {a b : List Char} (hd : s = a ++ (pat ++ b)) : False := by
  subst hd
  rcases findSubstr_some_of_decomp pat a b with ⟨i, hi⟩
  rw [hi] at h
  cases h

theorem mem_takeWhile_ws {p : Char → Bool} {l : List Char} :
    ∀ c ∈ l.takeWhile p, p c = true := by
  induction l with
  | nil => intro c hc; simp at hc
  | cons x xs ih =>
    intro c hc
    rw [List.takeWhile_cons] at hc
    by_cases hx : p x = true
    · rw [if_pos hx] at hc
      rcases List.mem_cons.mp hc with h | h
      · subst h; exact hx
      · exact ih c h
    · rw [if_neg hx] at hc
      simp at hc

theorem jsTrim_decomp (s : List Char) :
    ∃ u v, s = u ++ (jsTrim s ++ v) ∧ (∀ c ∈ u, isJsWs c = true) ∧
      (∀ c ∈ v, isJsWs c = true) := by
  refine ⟨s.takeWhile isJsWs, ((s.dropWhile isJsWs).reverse.takeWhile isJsWs).reverse,
    ?_, mem_takeWhile_ws, ?_⟩
  · rw [jsTrim]
    conv_lhs => rw [← List.takeWhile_append_dropWhile (p := isJsWs) (l := s)]
    congr 1
    calc s.dropWhile isJsWs = (s.dropWhile isJsWs).reverse.reverse := by
          rw [List.reverse_reverse]
      _ = (((s.dropWhile isJsWs).reverse.takeWhile isJsWs) ++
            ((s.dropWhile isJsWs).reverse.dropWhile isJsWs)).reverse := by
          rw [List.takeWhile_append_dropWhile]
      _ = ((s.dropWhile isJsWs).reverse.dropWhile isJsWs).reverse ++
            ((s.dropWhile isJsWs).reverse.takeWhile isJsWs).reverse := by
          rw [List.reverse_append]
  · intro c hc
    rw [List.mem_reverse] at hc
    exact mem_takeWhile_ws c hc

theorem findSubstr_jsTrim_none {pat s : List Char} (h : findSubstr pat s = none) :
    findSubstr pat (jsTrim s) = none := by
  obtain ⟨u, v, hs, _, _⟩ := jsTrim_decomp s
  cases hfind : findSubstr pat (jsTrim s) with
  | none => rfl
  | some i =>
    exfalso
    rcases findSubstr_some_decomp hfind with ⟨a, b, hab, _⟩
    refine findSubstr_none_no_decomp h (a := u ++ a) (b := b ++ v) ?_
    rw [hs, hab]
    simp [List.append_assoc]

theorem mem_jsTrim_iff {c : Char} {s : List Char} (hc : isJsWs c = false) :
    c ∈ jsTrim s ↔ c ∈ s := by
  obtain ⟨u, v, hs, hu, hv⟩ := jsTrim_decomp s
  constructor
  · intro h
    rw [hs]
    simp [h]
  · intro h
    rw [hs] at h
    rcases List.mem_append.mp h with h2 | h2
    · rw [hu c h2] at hc; cases hc
    · rcases List.mem_append.mp h2 with h3 | h3
      · exact h3
      · rw [hv c h3] at hc; cases hc

theorem indexOfChar_none_iff {c : Char} {s : List Char} : indexOfChar c s = none ↔ c ∉ s := by
  induction s with
  | nil => simp [indexOfChar]
  | cons x xs ih =>
    rw [indexOfChar]
    by_cases hx : x = c
    · subst hx
      simp
    · rw [if_neg hx, List.mem_cons, not_or]
      cases h : indexOfChar c xs with
      | none =>
        simp only [Option.map_none']
        constructor
        · intro _
          exact ⟨fun he => hx he.symm, ih.mp h⟩
        · intro _
          trivial
      | some i =>
        simp only [Option.map_some']
        have hmem : c ∈ xs := by
          by_contra hm
          rw [ih.mpr hm] at h
          exact Option.noConfusion h
        constructor
        · intro hcon
          exact Option.noConfusion hcon
        · rintro ⟨-, h2⟩
          exact absurd hmem h2

theorem indexOfChar_some_decomp {c : Char} {s : List Char} {i : ℕ}
    (h : indexOfChar c s = some i) :
    ∃ a b, s = a ++ c :: b ∧ a.length = i ∧ c ∉ a := by
  induction s generalizing i with
  | nil => cases h
  | cons x xs ih =>
    rw [indexOfChar] at h
    by_cases hx : x = c
    · rw [if_pos hx] at h
      cases h
      exact ⟨[], xs, by rw [hx]; rfl, rfl, by simp⟩
    · rw [if_neg hx] at h
      cases hfs : indexOfChar c xs with
      | none => rw [hfs] at h; cases h
      | some j =>
        rw [hfs] at h
        simp at h
        rcases ih hfs with ⟨a, b, hab, hlen, hmem⟩
        refine ⟨x :: a, b, by rw [List.cons_append, hab], by simp [hlen, ← h], ?_⟩
        simp only [List.mem_cons, not_or]
        exact ⟨fun he => hx he.symm, hmem⟩

theorem lastIndexOfChar_none_iff {c : Char} {s : List Char} :
    lastIndexOfChar c s = none ↔ c ∉ s := by
  induction s with
  | nil => simp [lastIndexOfChar]
  | cons x xs ih =>
    rw [lastIndexOfChar]
    cases h : lastIndexOfChar c xs with
    | some i =>
      have hmem : c ∈ xs := by
        by_contra hm
        rw [ih.mpr hm] at h
        exact Option.noConfusion h
      constructor
      · intro hcon
        exact Option.noConfusion hcon
      · intro hcon
        exact absurd (by simp [hmem] : c ∈ x :: xs) hcon
    | none =>
      by_cases hx : x = c
      · subst hx
        simp
      · rw [if_neg hx, List.mem_cons, not_or]
        constructor
        · intro _
          exact ⟨fun he => hx he.symm, ih.mp h⟩
        · intro _
          trivial

theorem lastIndexOfChar_some_decomp {c : Char} {s : List Char} {j : ℕ}
    (h : lastIndexOfChar c s = some j) :
    ∃ a b, s = a ++ c :: b ∧ a.length = j ∧ c ∉ b := by
  induction s generalizing j with
  | nil => cases h
  | cons x xs ih =>
    rw [lastIndexOfChar] at h
    cases hfs : lastIndexOfChar c xs with
    | some i =>
      rw [hfs] at h
      cases h
      rcases ih hfs with ⟨a, b, hab, hlen, hmem⟩
      exact ⟨x :: a, b, by rw [List.cons_append, hab], by simp [hlen], hmem⟩
    | none =>
      rw [hfs] at h
      by_cases hx : x = c
      · rw [if_pos hx] at h
        cases h
        exact ⟨[], xs, by rw [hx]; rfl, rfl, lastIndexOfChar_none_iff.mp hfs⟩
      · rw [if_neg hx] at h
        cases h

theorem dropWhile_append_all {p : Char → Bool} {a r : List Char}
    (ha : ∀ x ∈ a, p x = true) : (a ++ r).dropWhile p = r.dropWhile p := by
  induction a with
  | nil => rfl
  | cons x xs ih =>
    rw [List.cons_append, List.dropWhile_cons, ha x (by simp)]
    simp [ih (fun y hy => ha y (by simp [hy]))]

theorem lastIndexOfChar_append_of_not_mem {c : Char} {a d : List Char} (hd : c ∉ d) :
    lastIndexOfChar c (a ++ d) = lastIndexOfChar c a := by
  induction a with
  | nil =>
    rw [List.nil_append, lastIndexOfChar_none_iff.mpr hd]
    rfl
  | cons x xs ih =>
    rw [List.cons_append, lastIndexOfChar, lastIndexOfChar, ih]

theorem lastIndexOfChar_append_of_mem {c : Char} {a d : List Char} (hd : c ∈ d) :
    lastIndexOfChar c (a ++ d) = (lastIndexOfChar c d).map (· + a.length) := by
  induction a with
  | nil =>
    cases h : lastIndexOfChar c d with
    | none => exact absurd hd (lastIndexOfChar_none_iff.mp h)
    | some j => simp [h]
  | cons x xs ih =>
    rw [List.cons_append, lastIndexOfChar, ih]
    cases h : lastIndexOfChar c d with
    | none => exact absurd hd (lastIndexOfChar_none_iff.mp h)
    | some j =>
      simp only [Option.map_some', List.length_cons, Option.some.injEq]
      omega

theorem lastIndexOfChar_lt_length {c : Char} {a : List Char} {j : ℕ}
    (h : lastIndexOfChar c a = some j) : j < a.length := by
  rcases lastIndexOfChar_some_decomp h with ⟨a2, b2, hs, hlen, -⟩
  subst hs
  simp only [List.length_append, List.length_cons]
  omega

theorem lastIndexOfChar_isSome_of_mem {c : Char} {s : List Char} (h : c ∈ s) :
    ∃ j, lastIndexOfChar c s = some j := by
  cases hc : lastIndexOfChar c s with
  | none => exact absurd h (lastIndexOfChar_none_iff.mp hc)
  | some j => exact ⟨j, rfl⟩

theorem afterFirst_decomp {c : Char} {a b : List Char} (ha : c ∉ a) :
    afterFirst c (a ++ c :: b) = c :: b := by
  rw [afterFirst, dropWhile_append_all, List.dropWhile_cons]
  · simp
  · intro x hx
    simp only [decide_eq_true_eq]
    exact fun he => ha (he ▸ hx)

theorem uptoLast_eq_take {c : Char} {s : List Char} {j : ℕ}
    (h : lastIndexOfChar c s = some j) : uptoLast c s = s.take (j + 1) := by
  rcases lastIndexOfChar_some_decomp h with ⟨a, b, hs, hlen, hnb⟩
  subst hs
  rw [uptoLast, List.reverse_append, List.reverse_cons, List.append_assoc,
    dropWhile_append_all, List.singleton_append, List.dropWhile_cons]
  · rw [if_neg (by simp)]
    rw [List.reverse_cons, List.reverse_reverse, ← hlen, List.take_append_eq_append_take,
      List.take_of_length_le (by omega), show a.length + 1 - a.length = 1 from by omega]
    rfl
  · intro x hx
    rw [List.mem_reverse] at hx
    simp only [decide_eq_true_eq]
    exact fun he => hnb (he ▸ hx)

theorem uptoLast_append_not_mem {c : Char} {l v : List Char} (hv : c ∉ v) :
    uptoLast c (l ++ v) = uptoLast c l := by
  rw [uptoLast, uptoLast, List.reverse_append, dropWhile_append_all]
  intro x hx
  rw [List.mem_reverse] at hx
  simp only [decide_eq_true_eq]
  exact fun he => hv (he ▸ hx)

theorem jsSubstring_append {a d : List Char} {m : ℕ} (hm : a.length ≤ m) :
    jsSubstring (a ++ d) a.length m = d.take (m - a.length) := by
  rw [jsSubstring, List.take_append_eq_append_take, List.take_of_length_le hm,
    List.drop_left]

/-- Characterization of `sanitizeAndRepairJson` on fence-free inputs that
contain a `[` with no `]` after it: the result slices from the first `[`
through the last `}` after it with a synthetic `]` appended, or is the
literal `"[]"` when no such `}` exists. -/
theorem sanitize_no_bracket_close (s : List Char)
    (hf : findSubstr fence3 s = none) (hb : '[' ∈ s)
    (hnb : ']' ∉ afterFirst '[' s) :
    ('}' ∈ afterFirst '[' s →
      sanitizeAndRepairJson s = uptoLast '}' (afterFirst '[' s) ++ [']']) ∧
    ('}' ∉ afterFirst '[' s → sanitizeAndRepairJson s = ls "[]") := by
  have hfence : fenceExtract (jsTrim s) = jsTrim s := by
    rw [fenceExtract, findSubstr_jsTrim_none hf]
    rfl
  have hbT : '[' ∈ jsTrim s := (mem_jsTrim_iff (by decide)).mpr hb
  obtain ⟨i, hi⟩ : ∃ i, indexOfChar '[' (jsTrim s) = some i := by
    cases h : indexOfChar '[' (jsTrim s) with
    | none => exact absurd hbT (indexOfChar_none_iff.mp h)
    | some i => exact ⟨i, rfl⟩
  obtain ⟨a, b, hTd, hilen, hna⟩ := indexOfChar_some_decomp hi
  obtain ⟨u, v, hs, hu, hv⟩ := jsTrim_decomp s
  have hb_of_ws : ∀ x ∈ u, (fun y => decide (y ≠ '[')) x = true := by
    intro x hx
    simp only [decide_eq_true_eq]
    intro he
    rw [he] at hx
    exact absurd (hu _ hx) (by decide)
  have ha_ne : ∀ x ∈ a, (fun y => decide (y ≠ '[')) x = true := by
    intro x hx
    simp only [decide_eq_true_eq]
    exact fun he => hna (he ▸ hx)
  have hafter : afterFirst '[' s = '[' :: (b ++ v) := by
    rw [hs, hTd, afterFirst, List.append_assoc, dropWhile_append_all hb_of_ws,
      List.cons_append, dropWhile_append_all ha_ne,
      List.dropWhile_cons, if_neg (by simp)]
  have hnbb : ']' ∉ b := by
    intro hmem
    exact hnb (by rw [hafter]; simp [hmem])
  have hnbd : ']' ∉ '[' :: b := by
    simp only [List.mem_cons, not_or]
    exact ⟨by decide, hnbb⟩
  have hlast : lastIndexOfChar ']' (jsTrim s) = lastIndexOfChar ']' a := by
    rw [hTd]
    exact lastIndexOfChar_append_of_not_mem hnbd
  have hmain : sanitizeAndRepairJson s = repairTail (jsTrim s) i := by
    simp only [sanitizeAndRepairJson, hfence, hi]
    cases hcase : lastIndexOfChar ']' a with
    | none => simp only [hlast.trans hcase]
    | some j =>
      simp only [hlast.trans hcase]
      have hja : j < a.length := lastIndexOfChar_lt_length hcase
      rw [if_pos (by omega)]
  constructor
  · intro hbrace
    have hbb : '}' ∈ b := by
      rw [hafter] at hbrace
      rcases List.mem_cons.mp hbrace with h1 | h1
      · exact absurd h1 (by decide)
      · rcases List.mem_append.mp h1 with h2 | h2
        · exact h2
        · exact absurd (hv _ h2) (by decide)
    obtain ⟨jb, hjb⟩ := lastIndexOfChar_isSome_of_mem hbb
    have hjbd : lastIndexOfChar '}' ('[' :: b) = some (jb + 1) := by
      rw [lastIndexOfChar, hjb]
    have hbrT : lastIndexOfChar '}' (jsTrim s) = some (jb + 1 + a.length) := by
      rw [hTd, lastIndexOfChar_append_of_mem (by simp [hbb]), hjbd]
      rfl
    rw [hmain]
    simp only [repairTail, hbrT]
    rw [if_pos (by omega)]
    have hslice : jsSubstring (jsTrim s) i (jb + 1 + a.length + 1) =
        List.take (jb + 2) ('[' :: b) := by
      rw [hTd, ← hilen, jsSubstring_append (by omega)]
      congr 1
      omega
    rw [hslice, hafter, ← List.cons_append, uptoLast_append_not_mem ?_, uptoLast_eq_take hjbd]
    intro hmem
    exact absurd (hv _ hmem) (by decide)
  · intro hnbrace
    have hnbrb : '}' ∉ '[' :: b := by
      simp only [List.mem_cons, not_or]
      refine ⟨by decide, ?_⟩
      intro hmem
      exact hnbrace (by rw [hafter]; simp [hmem])
    have hbrT : lastIndexOfChar '}' (jsTrim s) = lastIndexOfChar '}' a := by
      rw [hTd]
      exact lastIndexOfChar_append_of_not_mem hnbrb
    rw [hmain]
    cases hcase : lastIndexOfChar '}' a with
    | none => simp only [repairTail, hbrT.trans hcase]
    | some j2 =>
      simp only [repairTail, hbrT.trans hcase]
      have hja : j2 < a.length := lastIndexOfChar_lt_length hcase
      rw [if_neg (by omega)]

theorem head_take_cons {c : Char} {b : List Char} {m : ℕ} (hm : 1 ≤ m) :
    (List.take m (c :: b)).head? = some c := by
  cases m with
  | zero => omega
  | succ m2 => rfl

theorem take_succ_at_last {c : Char} {s : List Char} {j : ℕ}
    (h : lastIndexOfChar c s = some j) :
    ∃ a2, s.take (j + 1) = a2 ++ [c] ∧ a2.length = j := by
  rcases lastIndexOfChar_some_decomp h with ⟨a2, b2, hs, hlen, -⟩
  subst hs
  refine ⟨a2, ?_, hlen⟩
  rw [← hlen, List.take_append_eq_append_take, List.take_of_length_le (by omega),
    show a2.length + 1 - a2.length = 1 from by omega]
  rfl

/-- Claim C10 (amended): `sanitizeAndRepairJson` always returns a string that
begins with `[` and ends with `]` — either the literal `"[]"` or a slice of
the fence-extracted, trimmed input starting at that processed text's first
`[`, with a synthetic `]` appended when needed. -/
theorem claim_C10_bracket_delimited (s : List Char) :
    (sanitizeAndRepairJson s).head? = some '[' ∧
    (sanitizeAndRepairJson s).getLast? = some ']' ∧
    (sanitizeAndRepairJson s = ls "[]" ∨
      ∃ i j, indexOfChar '[' (fenceExtract (jsTrim s)) = some i ∧
        (sanitizeAndRepairJson s = jsSubstring (fenceExtract (jsTrim s)) i j ∨
         sanitizeAndRepairJson s = jsSubstring (fenceExtract (jsTrim s)) i j ++ [']'])) := by
  cases hfi : indexOfChar '[' (fenceExtract (jsTrim s)) with
  | none =>
    have hr : sanitizeAndRepairJson s = ls "[]" := by
      simp only [sanitizeAndRepairJson, hfi]
    rw [hr]
    exact ⟨rfl, rfl, Or.inl rfl⟩
  | some i =>
    obtain ⟨a, b, hTd, hilen, hna⟩ := indexOfChar_some_decomp hfi
    have hrepair : ∀ r : List Char, r = repairTail (fenceExtract (jsTrim s)) i →
        r.head? = some '[' ∧ r.getLast? = some ']' ∧
        (r = ls "[]" ∨
          ∃ i2 j, some i = some i2 ∧
            (r = jsSubstring (fenceExtract (jsTrim s)) i2 j ∨
             r = jsSubstring (fenceExtract (jsTrim s)) i2 j ++ [']'])) := by
      intro r hr
      cases hbr : lastIndexOfChar '}' (fenceExtract (jsTrim s)) with
      | none =>
        simp only [repairTail, hbr] at hr
        rw [hr]
        exact ⟨rfl, rfl, Or.inl rfl⟩
      | some k =>
        simp only [repairTail, hbr] at hr
        by_cases hik : i < k
        · rw [if_pos hik] at hr
          obtain ⟨a2, hta, hlen2⟩ := take_succ_at_last hbr
          have hslice : jsSubstring (fenceExtract (jsTrim s)) i (k + 1) =
              List.take (k + 1 - i) ('[' :: b) := by
            rw [hTd, ← hilen, jsSubstring_append (by omega)]
          have hhead : (jsSubstring (fenceExtract (jsTrim s)) i (k + 1)).head? = some '[' := by
            rw [hslice]
            exact head_take_cons (by omega)
          have hlastc : (jsSubstring (fenceExtract (jsTrim s)) i (k + 1) ++ [']']).getLast? =
              some ']' := List.getLast?_concat _
          refine ⟨?_, by rw [hr]; exact hlastc, Or.inr ⟨i, k + 1, rfl, Or.inr hr⟩⟩
          rw [hr]
          cases hsl : jsSubstring (fenceExtract (jsTrim s)) i (k + 1) with
          | nil => rw [hsl] at hhead; exact Option.noConfusion hhead
          | cons x xs =>
            rw [hsl] at hhead
            simpa using hhead
        · rw [if_neg hik] at hr
          rw [hr]
          exact ⟨rfl, rfl, Or.inl rfl⟩
    cases hlb : lastIndexOfChar ']' (fenceExtract (jsTrim s)) with
    | none =>
      have hr : sanitizeAndRepairJson s = repairTail (fenceExtract (jsTrim s)) i := by
        simp only [sanitizeAndRepairJson, hfi, hlb]
      exact hrepair _ hr
    | some j =>
      by_cases hji : j < i
      · have hr : sanitizeAndRepairJson s = repairTail (fenceExtract (jsTrim s)) i := by
          simp only [sanitizeAndRepairJson, hfi, hlb]
          rw [if_pos hji]
        exact hrepair _ hr
      · have hr : sanitizeAndRepairJson s =
            jsSubstring (fenceExtract (jsTrim s)) i (j + 1) := by
          simp only [sanitizeAndRepairJson, hfi, hlb]
          rw [if_neg hji]
        obtain ⟨a2, hta, hlen2⟩ := take_succ_at_last hlb
        have hslice : jsSubstring (fenceExtract (jsTrim s)) i (j + 1) =
            List.take (j + 1 - i) ('[' :: b) := by
          rw [hTd, ← hilen, jsSubstring_append (by omega)]
        refine ⟨?_, ?_, Or.inr ⟨i, j + 1, rfl, Or.inl hr⟩⟩
        · rw [hr, hslice]
          exact head_take_cons (by omega)
        · rw [hr, jsSubstring, hta, List.drop_append_eq_append_drop,
            show i - a2.length = 0 from by omega]
          exact List.getLast?_concat _

/-- Counterexample to claim C10 as stated: for the input `[x｀｀｀[{}]｀｀｀`
(written with backtick fences), the result `[{}]` comes from the
fence-extracted content, so it is NOT the literal `"[]"` nor any slice of the
raw input starting at the raw input's first `[` (index 0, where the next
character is `x`), with or without a synthetic `]`. -/
theorem claim_C10_counterexample :
    indexOfChar '[' (ls "[x```[\x7b\x7d]```") = some 0 ∧
    sanitizeAndRepairJson (ls "[x```[\x7b\x7d]```") = ls "[\x7b\x7d]" ∧
    sanitizeAndRepairJson (ls "[x```[\x7b\x7d]```") ≠ ls "[]" ∧
    ∀ j : ℕ,
      sanitizeAndRepairJson (ls "[x```[\x7b\x7d]```") ≠
        jsSubstring (ls "[x```[\x7b\x7d]```") 0 j ∧
      sanitizeAndRepairJson (ls "[x```[\x7b\x7d]```") ≠
        jsSubstring (ls "[x```[\x7b\x7d]```") 0 j ++ [']'] := by
  refine ⟨by decide, by decide, by decide, ?_⟩
  intro j
  rcases le_or_lt j 12 with hj | hj
  · interval_cases j <;> exact ⟨by decide, by decide⟩
  · have hlen : (ls "[x```[\x7b\x7d]```").length ≤ j := by
      rw [show (ls "[x```[\x7b\x7d]```").length = 12 from by decide]
      omega
    refine ⟨?_, ?_⟩ <;> rw [jsSubstring, List.take_of_length_le hlen] <;> decide

/-- Claim C3 (amended): for every input WITHOUT a code-fence marker that
contains a `[` with no `]` after it, the payload recovery slices from the
first `[` up to and including the last `}` after the `[` and appends a
synthetic `]`, and yields the literal `"[]"` when no such `}` exists.  (The
no-fence proviso is forced: fence extraction happens first, see the
counterexample.)  Concretely, the truncated model output
`[{"start":"00:01.000","end":"00:02.000","text":"hi"` recovers the empty
payload, and the same input with a trailing `}` recovers exactly one record
(1 s – 2 s, text `hi`). -/
theorem claim_C3_payload_recovery :
    (∀ s : List Char, findSubstr fence3 s = none → '[' ∈ s →
      ']' ∉ afterFirst '[' s →
      ('}' ∈ afterFirst '[' s →
        sanitizeAndRepairJson s = uptoLast '}' (afterFirst '[' s) ++ [']']) ∧
      ('}' ∉ afterFirst '[' s → sanitizeAndRepairJson s = ls "[]")) ∧
    sanitizeAndRepairJson
      (ls "[\x7b\"start\":\"00:01.000\",\"end\":\"00:02.000\",\"text\":\"hi\"") = ls "[]" ∧
    generateSubtitlesResult
      (ls "[\x7b\"start\":\"00:01.000\",\"end\":\"00:02.000\",\"text\":\"hi\"\x7d") =
      Except.ok [{ id := 0, startTime := some 1, endTime := some 2, text := ls "hi" }] := by
  refine ⟨sanitize_no_bracket_close, by decide, ?_⟩
  have h1 : parseTimeString (ls "00:01.000") = some 1 := by
    rw [show ls "00:01.000" = ['0', '0'] ++ (':' :: (['0', '1'] ++ ('.' :: ['0', '0', '0'])))
      from by decide]
    rw [parseTimeString_two (by decide) (by decide) (by decide) (by decide) (by decide)
      (Or.inl rfl)]
    rw [show digitsVal ['0', '0'] = 0 from by decide,
      show digitsVal ['0', '1'] = 1 from by decide, fracQ,
      show digitsVal ['0', '0', '0'] = 0 from by decide]
    norm_num
  have h2 : parseTimeString (ls "00:02.000") = some 2 := by
    rw [show ls "00:02.000" = ['0', '0'] ++ (':' :: (['0', '2'] ++ ('.' :: ['0', '0', '0'])))
      from by decide]
    rw [parseTimeString_two (by decide) (by decide) (by decide) (by decide) (by decide)
      (Or.inl rfl)]
    rw [show digitsVal ['0', '0'] = 0 from by decide,
      show digitsVal ['0', '2'] = 2 from by decide, fracQ,
      show digitsVal ['0', '0', '0'] = 0 from by decide]
    norm_num
  have hin : interpretInner (sanitizeAndRepairJson
      (ls "[\x7b\"start\":\"00:01.000\",\"end\":\"00:02.000\",\"text\":\"hi\"\x7d")) =
      Except.ok [(some 1, some 2, ls "hi")] := by
    rw [show interpretInner (sanitizeAndRepairJson
        (ls "[\x7b\"start\":\"00:01.000\",\"end\":\"00:02.000\",\"text\":\"hi\"\x7d")) =
      Except.ok [(parseTimeString (ls "00:01.000"), parseTimeString (ls "00:02.000"), ls "hi")]
      from rfl, h1, h2]
  rw [generateSubtitlesResult]
  rw [if_neg (by decide)]
  rw [hin]
  rfl

/-- Counterexample to claim C3 as stated: a fence-bearing input containing a
`[` with no `]` after it and a `}` after the `[`; the fence extraction step
runs first and reduces the text to `a`, so the result is `"[]"` rather than
the `[{}]` slice the claim describes. -/
theorem claim_C3_counterexample :
    '[' ∈ ls "```a```[\x7b\x7d" ∧
    ']' ∉ afterFirst '[' (ls "```a```[\x7b\x7d") ∧
    '}' ∈ afterFirst '[' (ls "```a```[\x7b\x7d") ∧
    sanitizeAndRepairJson (ls "```a```[\x7b\x7d") = ls "[]" ∧
    sanitizeAndRepairJson (ls "```a```[\x7b\x7d") ≠
      uptoLast '}' (afterFirst '[' (ls "```a```[\x7b\x7d")) ++ [']'] := by
  refine ⟨by decide, by decide, by decide, by decide, by decide⟩

/-- Witness for the amended C3 at a concrete fence-free truncated input. -/
theorem claim_C3_payload_recovery_witness :
    sanitizeAndRepairJson (ls "xx[\x7b\x7d") =
      uptoLast '}' (afterFirst '[' (ls "xx[\x7b\x7d")) ++ [']'] :=
  (claim_C3_payload_recovery.1 (ls "xx[\x7b\x7d") (by decide) (by decide) (by decide)).1
    (by decide)

theorem mapWithIndex_length {α β : Type} (f : ℕ → α → β) :
    ∀ (k : ℕ) (l : List α), (mapWithIndex f k l).length = l.length := by
  intro k l
  induction l generalizing k with
  | nil => rfl
  | cons x xs ih => simp [mapWithIndex, ih]

theorem mapWithIndex_seg_ids (mk : ℕ → (Option ℚ × Option ℚ × List Char) → SubtitleSegment)
    (hmk : ∀ i p, (mk i p).id = i) :
    ∀ (k : ℕ) (l : List (Option ℚ × Option ℚ × List Char)),
      (mapWithIndex mk k l).map (fun seg => seg.id) = List.range' k l.length := by
  intro k l
  induction l generalizing k with
  | nil => rfl
  | cons x xs ih =>
    simp only [mapWithIndex, List.map_cons, hmk, ih, List.length_cons]
    rw [List.range'_succ]

/-- Claim C9 (amended): `parseSrt` splits the normalized input on blank-line
boundaries (the first conjunct restates the pipeline over those blocks); a
block with at least three trimmed lines contributes a record — line 2 split on
the arrow literal as the timecode pair, subsequent lines joined with spaces as
the text — PROVIDED the arrow split yields a non-empty start and end; blocks
with fewer than three lines are silently skipped, and so are blocks whose
second line lacks the arrow or has an empty side (the correction); fresh
identifiers are assigned in order. -/
theorem claim_C9_parseSrt_structure (s : List Char) :
    parseSrt s = mapWithIndex
      (fun i p => { id := i, startTime := p.1, endTime := p.2.1, text := p.2.2 }) 0
      ((splitOnSep '\n' ['\n'] (normalizeNewlines s)).filterMap parseSrtBlock) ∧
    (∀ block : List Char, (splitOnChar '\n' (jsTrim block)).length < 3 →
      parseSrtBlock block = none) ∧
    (∀ block l0 timecode ltext : List Char, ∀ lrest : List (List Char),
      splitOnChar '\n' (jsTrim block) = l0 :: timecode :: ltext :: lrest →
      ∀ s0 s1 : List Char, ∀ srest : List (List Char),
        splitOnSep ' ' (ls "--> ") timecode = s0 :: s1 :: srest →
        s0.isEmpty = false → s1.isEmpty = false →
        parseSrtBlock block = some (parseTimeString s0, parseTimeString s1,
          joinSep [' '] (ltext :: lrest))) ∧
    (∀ block l0 timecode ltext : List Char, ∀ lrest : List (List Char),
      splitOnChar '\n' (jsTrim block) = l0 :: timecode :: ltext :: lrest →
      ∀ s0 s1 : List Char, ∀ srest : List (List Char),
        splitOnSep ' ' (ls "--> ") timecode = s0 :: s1 :: srest →
        (s0.isEmpty = true ∨ s1.isEmpty = true) →
        parseSrtBlock block = none) ∧
    (∀ block l0 timecode ltext : List Char, ∀ lrest : List (List Char),
      splitOnChar '\n' (jsTrim block) = l0 :: timecode :: ltext :: lrest →
      ∀ x : List Char, splitOnSep ' ' (ls "--> ") timecode = [x] →
        parseSrtBlock block = none) ∧
    (parseSrt s).map (fun seg => seg.id) = List.range (parseSrt s).length := by
  refine ⟨rfl, ?_, ?_, ?_, ?_, ?_⟩
  · intro block hlen
    rcases hl : splitOnChar '\n' (jsTrim block) with _ | ⟨a, _ | ⟨b, _ | ⟨c, r⟩⟩⟩
    · simp only [parseSrtBlock, hl]
    · simp only [parseSrtBlock, hl]
    · simp only [parseSrtBlock, hl]
    · rw [hl] at hlen
      simp only [List.length_cons] at hlen
      omega
  · intro block l0 timecode ltext lrest hlines s0 s1 srest harrow h0 h1
    simp only [parseSrtBlock, hlines, harrow]
    rw [if_neg (by simp [h0, h1])]
  · intro block l0 timecode ltext lrest hlines s0 s1 srest harrow hor
    simp only [parseSrtBlock, hlines, harrow]
    rw [if_pos (by rcases hor with h | h <;> simp [h])]
  · intro block l0 timecode ltext lrest hlines x harrow
    simp only [parseSrtBlock, hlines, harrow]
  · rw [parseSrt]
    rw [mapWithIndex_seg_ids _ (fun i p => rfl), mapWithIndex_length, List.range_eq_range']

/-- Counterexample to claim C9 as stated: the block `1\nxx\nyy` has three
lines, but its second line does not split on the arrow literal into a start
and an end, so no record is produced — the claim asserts every block with at
least three lines yields a record. -/
theorem claim_C9_counterexample :
    splitOnSep '\n' ['\n'] (normalizeNewlines (ls "1\nxx\nyy")) = [ls "1\nxx\nyy"] ∧
    (splitOnChar '\n' (jsTrim (ls "1\nxx\nyy"))).length = 3 ∧
    parseSrt (ls "1\nxx\nyy") = [] := by
  refine ⟨by decide, by decide, by decide⟩

/-- Witness for the amended C9 at a concrete three-line block with a valid
timecode line. -/
theorem claim_C9_parseSrt_structure_witness :
    parseSrtBlock (ls "1\na --> b\nhi") =
      some (parseTimeString (ls "a"), parseTimeString (ls "b"), ls "hi") := by
  have h := (claim_C9_parseSrt_structure []).2.2.1 (ls "1\na --> b\nhi")
    (ls "1") (ls "a --> b") (ls "hi") [] (by decide) (ls "a") (ls "b") [] (by decide)
    (by decide) (by decide)
  exact h

theorem dropWhile_headFails (p : Char → Bool) (l : List Char) :
    headFails p (l.dropWhile p) = true := by
  induction l with
  | nil => rfl
  | cons x xs ih =>
    rw [List.dropWhile_cons]
    split
    · exact ih
    · rename_i hx
      simp [headFails, Bool.not_eq_true'] at hx ⊢
      exact hx

theorem dropWhile_of_headFails {p : Char → Bool} {l : List Char}
    (h : headFails p l = true) : l.dropWhile p = l := by
  cases l with
  | nil => rfl
  | cons c rest =>
    have hc : p c = false := by simpa [headFails] using h
    rw [List.dropWhile_cons, if_neg (by simp [hc])]

theorem headFails_append_left {p : Char → Bool} {x y : List Char} (hx : x ≠ []) :
    headFails p (x ++ y) = headFails p x := by
  cases x with
  | nil => exact absurd rfl hx
  | cons c r => rfl

theorem jsTrim_eq_self {l : List Char} (hh : headFails isJsWs l = true)
    (hl : headFails isJsWs l.reverse = true) : jsTrim l = l := by
  rw [jsTrim, dropWhile_of_headFails hh, dropWhile_of_headFails hl, List.reverse_reverse]

theorem jsTrim_length_le (s : List Char) :
    (jsTrim s).length ≤ (s.dropWhile isJsWs).length := by
  rw [jsTrim, List.length_reverse]
  calc ((s.dropWhile isJsWs).reverse.dropWhile isJsWs).length
      ≤ (s.dropWhile isJsWs).reverse.length := (List.dropWhile_sublist _).length_le
    _ = (s.dropWhile isJsWs).length := List.length_reverse _

theorem jsTrim_head_not_ws {s : List Char} (ht : jsTrim s = s) :
    headFails isJsWs s = true := by
  cases hs : s with
  | nil => rfl
  | cons c rest =>
    show (!isJsWs c) = true
    by_contra hcon
    have hc : isJsWs c = true := by simpa using hcon
    have h1 : (c :: rest).dropWhile isJsWs = rest.dropWhile isJsWs := by
      rw [List.dropWhile_cons, if_pos hc]
    have h2 : (jsTrim (c :: rest)).length ≤ rest.length := by
      calc (jsTrim (c :: rest)).length
          ≤ ((c :: rest).dropWhile isJsWs).length := jsTrim_length_le _
        _ = (rest.dropWhile isJsWs).length := by rw [h1]
        _ ≤ rest.length := (List.dropWhile_sublist _).length_le
    rw [hs] at ht
    rw [ht] at h2
    simp at h2

theorem jsTrim_last_not_ws {s : List Char} (ht : jsTrim s = s) :
    headFails isJsWs s.reverse = true := by
  have h : s.reverse = ((s.dropWhile isJsWs).reverse).dropWhile isJsWs := by
    conv_lhs => rw [← ht]
    rw [jsTrim, List.reverse_reverse]
  rw [h]
  exact dropWhile_headFails _ _

theorem jsTrim_concat_nl {core : List Char} (hne : core ≠ [])
    (hh : headFails isJsWs core = true) (hl : headFails isJsWs core.reverse = true) :
    jsTrim (core ++ ['\n']) = core := by
  have h1 : (core ++ ['\n']).dropWhile isJsWs = core ++ ['\n'] := by
    cases core with
    | nil => exact absurd rfl hne
    | cons c rest =>
      have hc : isJsWs c = false := by simpa [headFails] using hh
      rw [List.cons_append, List.dropWhile_cons, if_neg (by simp [hc])]
  rw [jsTrim, h1, List.reverse_append,
    show (['\n'] : List Char).reverse = ['\n'] from rfl, List.singleton_append,
    List.dropWhile_cons, if_pos (by decide), dropWhile_of_headFails hl, List.reverse_reverse]

theorem findSubstr_cons (pat : List Char) (x : Char) (xs : List Char) :
    findSubstr pat (x :: xs) =
      if leadsWith pat (x :: xs) = true then some 0
      else (findSubstr pat xs).map (· + 1) := rfl

theorem leadsWith_cons_ne {p c : Char} (ps cs : List Char) (h : p ≠ c) :
    leadsWith (p :: ps) (c :: cs) = false := by
  simp [leadsWith, h]

theorem findSubstr_none_of_head_not_mem {c : Char} (cs : List Char) {s : List Char}
    (h : c ∉ s) : findSubstr (c :: cs) s = none := by
  induction s with
  | nil => simp [findSubstr, leadsWith]
  | cons x xs ih =>
    simp only [List.mem_cons, not_or] at h
    rw [findSubstr_cons, leadsWith_cons_ne _ _ h.1]
    simp [ih h.2]

theorem leadsWith_nl2_pair (x y : Char) (t : List Char) :
    leadsWith ['\n', '\n'] (x :: y :: t) = (decide ('\n' = x) && decide ('\n' = y)) := by
  simp [leadsWith]

theorem findSubstr_cons2_none {x y : Char} {t : List Char}
    (h : findSubstr ['\n', '\n'] (x :: y :: t) = none) :
    (decide ('\n' = x) && decide ('\n' = y)) = false ∧
      findSubstr ['\n', '\n'] (y :: t) = none := by
  rw [findSubstr_cons, leadsWith_nl2_pair] at h
  cases hlw : (decide ('\n' = x) && decide ('\n' = y)) with
  | true => rw [hlw] at h; simp at h
  | false =>
    rw [hlw] at h
    simp only [Bool.false_eq_true, if_false] at h
    refine ⟨rfl, ?_⟩
    cases hfs : findSubstr ['\n', '\n'] (y :: t) with
    | none => rfl
    | some i => rw [hfs] at h; simp at h

theorem nl2_none_append {A r : List Char} (hA : '\n' ∉ A)
    (hr : findSubstr ['\n', '\n'] r = none) (hhead : r.head? ≠ some '\n') :
    findSubstr ['\n', '\n'] (A ++ '\n' :: r) = none := by
  induction A with
  | nil =>
    rw [List.nil_append]
    cases r with
    | nil => decide
    | cons z zs =>
      have hz : z ≠ '\n' := by
        intro hz
        exact hhead (by rw [List.head?_cons, hz])
      rw [findSubstr_cons, leadsWith_nl2_pair]
      simp [Ne.symm hz, hr]
  | cons a A' ih =>
    simp only [List.mem_cons, not_or] at hA
    rw [List.cons_append, findSubstr_cons,
      leadsWith_cons_ne _ _ (show '\n' ≠ a from hA.1)]
    simp [ih hA.2]

theorem nl2_none_concat {core : List Char} (hc : findSubstr ['\n', '\n'] core = none)
    (hlast : core.getLast? ≠ some '\n') :
    findSubstr ['\n', '\n'] (core ++ ['\n']) = none := by
  induction core with
  | nil => decide
  | cons x core' ih =>
    cases core' with
    | nil =>
      have hx : x ≠ '\n' := by
        intro hx
        exact hlast (by rw [hx]; rfl)
      simp only [List.cons_append, List.nil_append]
      rw [findSubstr_cons, leadsWith_nl2_pair]
      simp [Ne.symm hx, show findSubstr ['\n', '\n'] ['\n'] = none from by decide]
    | cons y core'' =>
      rcases findSubstr_cons2_none hc with ⟨hlw, hinner⟩
      have hlast' : (y :: core'').getLast? ≠ some '\n' := by
        rw [← List.getLast?_cons_cons (a := x)]
        exact hlast
      rw [List.cons_append, List.cons_append, findSubstr_cons, leadsWith_nl2_pair, hlw]
      have ihh := ih hinner hlast'
      rw [List.cons_append] at ihh
      simp [ihh]

theorem nl2_boundary {core rest : List Char} (hc : findSubstr ['\n', '\n'] core = none)
    (hlast : core.getLast? ≠ some '\n') :
    findSubstr ['\n', '\n'] (core ++ '\n' :: '\n' :: rest) = some core.length := by
  induction core with
  | nil =>
    rw [List.nil_append, findSubstr_cons, leadsWith_nl2_pair]
    simp
  | cons x core' ih =>
    cases core' with
    | nil =>
      have hx : x ≠ '\n' := by
        intro hx
        exact hlast (by rw [hx]; rfl)
      have hin : findSubstr ['\n', '\n'] ('\n' :: '\n' :: rest) = some 0 := by
        rw [findSubstr_cons, leadsWith_nl2_pair]
        simp
      simp only [List.cons_append, List.nil_append]
      rw [findSubstr_cons, leadsWith_nl2_pair, hin]
      simp [Ne.symm hx]
    | cons y core'' =>
      rcases findSubstr_cons2_none hc with ⟨hlw, hinner⟩
      have hlast' : (y :: core'').getLast? ≠ some '\n' := by
        rw [← List.getLast?_cons_cons (a := x)]
        exact hlast
      rw [List.cons_append, List.cons_append, findSubstr_cons, leadsWith_nl2_pair, hlw]
      have ihh := ih hinner hlast'
      rw [List.cons_append] at ihh
      simp [ihh, List.length_cons]

theorem mem_of_head?_eq_some {l : List Char} {a : Char} (h : l.head? = some a) : a ∈ l := by
  cases l with
  | nil => cases h
  | cons x xs =>
    rw [List.head?_cons] at h
    injection h with h
    rw [← h]
    exact List.mem_cons_self _ _

theorem head?_append_left {u v : List Char} (hu : u ≠ []) : (u ++ v).head? = u.head? := by
  cases u with
  | nil => exact absurd rfl hu
  | cons x xs => rw [List.cons_append, List.head?_cons, List.head?_cons]

theorem getLast?_append_right {u v : List Char} (hv : v ≠ []) :
    (u ++ v).getLast? = v.getLast? := by
  rw [← List.head?_reverse, ← List.head?_reverse (l := v), List.reverse_append]
  cases hrv : v.reverse with
  | nil => exact absurd (by simpa using hrv) hv
  | cons c t => rw [List.cons_append, List.head?_cons, List.head?_cons]

theorem mem_formatSrtTime {q : ℚ} (h0 : 0 ≤ q) :
    ∀ x ∈ formatSrtTime (some q), isDigitCh x = true ∨ x = ':' ∨ x = ',' := by
  rw [formatSrtTime_nonneg q h0]
  intro x hx
  simp only [List.mem_append, List.mem_cons] at hx
  rcases hx with h | h | h | h | h | h | h
  · exact Or.inl (pad2_digits _ h)
  · exact Or.inr (Or.inl h)
  · exact Or.inl (pad2_digits _ h)
  · exact Or.inr (Or.inl h)
  · exact Or.inl (pad2_digits _ h)
  · exact Or.inr (Or.inr h)
  · exact Or.inl (pad3_digits _ h)

theorem formatSrtTime_ne {q : ℚ} (h0 : 0 ≤ q) : formatSrtTime (some q) ≠ [] := by
  rw [formatSrtTime_nonneg q h0]
  intro h
  rcases List.append_eq_nil.mp h with ⟨h1, _⟩
  exact pad2_ne _ h1

theorem not_mem_formatSrtTime {q : ℚ} (h0 : 0 ≤ q) {x : Char}
    (h1 : isDigitCh x = false) (h2 : x ≠ ':') (h3 : x ≠ ',') :
    x ∉ formatSrtTime (some q) := by
  intro hx
  rcases mem_formatSrtTime h0 x hx with h | h | h
  · rw [h1] at h; cases h
  · exact h2 h
  · exact h3 h

theorem not_mem_natDigits {x : Char} (hx : isDigitCh x = false) (n : ℕ) :
    x ∉ natDigits n := by
  intro h
  have h2 := natDigits_digits (n := n) x h
  rw [hx] at h2
  cases h2

theorem headFails_of_digits {l : List Char} (hne : l ≠ [])
    (hd : ∀ c ∈ l, isDigitCh c = true) : headFails isJsWs l = true := by
  cases l with
  | nil => exact absurd rfl hne
  | cons c r =>
    show (!isJsWs c) = true
    rw [digit_not_ws (hd c (List.mem_cons_self _ _))]
    rfl

theorem mem_of_getLast?_eq_some {l : List Char} {a : Char} (h : l.getLast? = some a) :
    a ∈ l := by
  rw [← List.head?_reverse] at h
  have h2 := mem_of_head?_eq_some h
  simpa using h2

theorem findSubstr_first_at {c : Char} {cs a b : List Char} (ha : c ∉ a) :
    findSubstr (c :: cs) (a ++ ((c :: cs) ++ b)) = some a.length := by
  induction a with
  | nil =>
    rw [List.nil_append, List.cons_append, findSubstr_cons,
      if_pos (leadsWith_iff.mpr ⟨b, by rw [List.cons_append]⟩)]
    rfl
  | cons x xs ih =>
    simp only [List.mem_cons, not_or] at ha
    rw [List.cons_append, findSubstr_cons, leadsWith_cons_ne _ _ ha.1]
    have ihh := ih ha.2
    rw [List.cons_append] at ihh
    simp [ihh]

theorem srtBlock_eq_core {k : ℕ} {seg : SubtitleSegment} (ht : jsTrim seg.text = seg.text) :
    srtBlock k seg = srtCore k seg ++ ['\n'] := by
  simp only [srtBlock, srtCore, ht]
  simp [List.append_assoc, List.cons_append]

theorem srtCore_ne (k : ℕ) (seg : SubtitleSegment) : srtCore k seg ≠ [] := by
  rw [srtCore]
  intro h
  rcases List.append_eq_nil.mp h with ⟨h1, _⟩
  exact natDigits_ne _ h1

theorem srtCore_headFails (k : ℕ) (seg : SubtitleSegment) :
    headFails isJsWs (srtCore k seg) = true := by
  rw [srtCore, headFails_append_left (natDigits_ne _)]
  exact headFails_of_digits (natDigits_ne _) natDigits_digits

theorem srtCore_split_text (k : ℕ) (seg : SubtitleSegment) :
    srtCore k seg =
      (natDigits (k + 1) ++
        ('\n' :: ((formatSrtTime seg.startTime ++ (ls " --> " ++ formatSrtTime seg.endTime)) ++
          ['\n']))) ++ seg.text := by
  simp [srtCore, List.append_assoc, List.cons_append]

theorem srtCore_rev_headFails {k : ℕ} {seg : SubtitleSegment} (hv : validSeg seg) :
    headFails isJsWs (srtCore k seg).reverse = true := by
  obtain ⟨_, _, htr, hne, _, _⟩ := hv
  rw [srtCore_split_text, List.reverse_append,
    headFails_append_left (fun h => hne (by simpa using h))]
  exact jsTrim_last_not_ws htr

theorem srtCore_getLast {k : ℕ} {seg : SubtitleSegment} (hv : validSeg seg) :
    (srtCore k seg).getLast? ≠ some '\n' := by
  obtain ⟨_, _, _, hne, hnl, _⟩ := hv
  rw [srtCore_split_text, getLast?_append_right hne]
  intro h
  exact hnl (mem_of_getLast?_eq_some h)

theorem srtCore_nl2_none {k : ℕ} {seg : SubtitleSegment} (hv : validSeg seg) :
    findSubstr ['\n', '\n'] (srtCore k seg) = none := by
  obtain ⟨⟨t1, hs1, h01, _⟩, ⟨t2, hs2, h02, _⟩, htr, hne, hnl, _⟩ := hv
  rw [srtCore, hs1, hs2]
  have hf1ne : formatSrtTime (some t1) ≠ [] := formatSrtTime_ne h01
  have hnl_f1 : '\n' ∉ formatSrtTime (some t1) :=
    not_mem_formatSrtTime h01 (by decide) (by decide) (by decide)
  have hnl_f2 : '\n' ∉ formatSrtTime (some t2) :=
    not_mem_formatSrtTime h02 (by decide) (by decide) (by decide)
  have hnl_sep : '\n' ∉ ls " --> " := by decide
  have hnl_tc : '\n' ∉ formatSrtTime (some t1) ++ (ls " --> " ++ formatSrtTime (some t2)) := by
    simp only [List.mem_append, not_or]
    exact ⟨hnl_f1, hnl_sep, hnl_f2⟩
  have htext_none : findSubstr ['\n', '\n'] seg.text = none :=
    findSubstr_none_of_head_not_mem _ hnl
  have htext_head : seg.text.head? ≠ some '\n' := by
    intro h
    exact hnl (mem_of_head?_eq_some h)
  have htcne : formatSrtTime (some t1) ++ (ls " --> " ++ formatSrtTime (some t2)) ≠ [] := by
    intro h
    rcases List.append_eq_nil.mp h with ⟨h1, _⟩
    exact hf1ne h1
  have hinner : findSubstr ['\n', '\n']
      ((formatSrtTime (some t1) ++ (ls " --> " ++ formatSrtTime (some t2))) ++
        '\n' :: seg.text) = none :=
    nl2_none_append hnl_tc htext_none htext_head
  have hihead : ((formatSrtTime (some t1) ++ (ls " --> " ++ formatSrtTime (some t2))) ++
      '\n' :: seg.text).head? ≠ some '\n' := by
    rw [head?_append_left htcne, head?_append_left hf1ne]
    intro h
    exact hnl_f1 (mem_of_head?_eq_some h)
  exact nl2_none_append (not_mem_natDigits (by decide) _) hinner hihead


theorem parseSrtBlock_core {block : List Char} {k : ℕ} {seg : SubtitleSegment}
    (hv : validSeg seg) (hjt : jsTrim block = srtCore k seg) :
    parseSrtBlock block =
      some (parseTimeString (formatSrtTime seg.startTime),
        parseTimeString (formatSrtTime seg.endTime), seg.text) := by
  obtain ⟨⟨t1, hs1, h01, _⟩, ⟨t2, hs2, h02, _⟩, htr, hne, hnl, _⟩ := hv
  have hidx : ∀ x ∈ natDigits (k + 1), x ≠ '\n' :=
    fun x hx => digit_ne (natDigits_digits _ hx) '\n' (Or.inl (by decide))
  have hnl_f1 : '\n' ∉ formatSrtTime (some t1) :=
    not_mem_formatSrtTime h01 (by decide) (by decide) (by decide)
  have hnl_f2 : '\n' ∉ formatSrtTime (some t2) :=
    not_mem_formatSrtTime h02 (by decide) (by decide) (by decide)
  have htc : ∀ x ∈ formatSrtTime (some t1) ++ (ls " --> " ++ formatSrtTime (some t2)),
      x ≠ '\n' := by
    intro x hx h
    subst h
    simp only [List.mem_append] at hx
    rcases hx with h | h | h
    · exact hnl_f1 h
    · exact (by decide : '\n' ∉ ls " --> ") h
    · exact hnl_f2 h
  have htext : ∀ x ∈ seg.text, x ≠ '\n' := fun x hx h => hnl (h ▸ hx)
  have hsp1 : ' ' ∉ formatSrtTime (some t1) :=
    not_mem_formatSrtTime h01 (by decide) (by decide) (by decide)
  have hsp2 : ' ' ∉ formatSrtTime (some t2) :=
    not_mem_formatSrtTime h02 (by decide) (by decide) (by decide)
  have hne1 : (formatSrtTime (some t1)).isEmpty = false := by
    cases hf : formatSrtTime (some t1) with
    | nil => exact absurd hf (formatSrtTime_ne h01)
    | cons a l => rfl
  have hne2 : (formatSrtTime (some t2)).isEmpty = false := by
    cases hf : formatSrtTime (some t2) with
    | nil => exact absurd hf (formatSrtTime_ne h02)
    | cons a l => rfl
  have hsplit2 : splitOnSep ' ' (ls "--> ")
      (formatSrtTime (some t1) ++ (ls " --> " ++ formatSrtTime (some t2))) =
      [formatSrtTime (some t1), formatSrtTime (some t2)] := by
    rw [show (ls " --> ") = ' ' :: ls "--> " from rfl]
    rw [splitOnSep_of_some (findSubstr_first_at hsp1)]
    have htake : (formatSrtTime (some t1) ++
        ((' ' :: ls "--> ") ++ formatSrtTime (some t2))).take
          (formatSrtTime (some t1)).length = formatSrtTime (some t1) :=
      List.take_left' rfl
    have hd : (formatSrtTime (some t1) ++
        ((' ' :: ls "--> ") ++ formatSrtTime (some t2))).drop
          ((formatSrtTime (some t1)).length + ((ls "--> ").length + 1)) =
        formatSrtTime (some t2) := by
      rw [← List.append_assoc]
      exact List.drop_left' (by rw [List.length_append, List.length_cons])
    rw [htake, hd, splitOnSep_of_none (findSubstr_none_of_head_not_mem _ hsp2)]
  have hlines : splitOnChar '\n' (jsTrim block) =
      natDigits (k + 1) ::
        ((formatSrtTime (some t1) ++ (ls " --> " ++ formatSrtTime (some t2))) ::
          [seg.text]) := by
    rw [hjt, srtCore, hs1, hs2, splitOnChar_append hidx, splitOnChar_append htc,
      splitOnChar_no_sep htext]
  simp only [parseSrtBlock, hlines, hsplit2]
  rw [if_neg (by simp [hne1, hne2])]
  rw [hs1, hs2]
  rfl

theorem generateSrt_blocks (segs : List SubtitleSegment) : ∀ k : ℕ,
    (∀ seg ∈ segs, validSeg seg) →
    (splitOnSep '\n' ['\n'] (joinSep ['\n'] (mapWithIndex srtBlock k segs))).filterMap
        parseSrtBlock =
      segs.map (fun seg => (parseTimeString (formatSrtTime seg.startTime),
        parseTimeString (formatSrtTime seg.endTime), seg.text)) := by
  induction segs with
  | nil => intro k hval; rfl
  | cons s rest ih =>
    intro k hval
    have hvs : validSeg s := hval s (List.mem_cons_self _ _)
    have hvrest : ∀ seg ∈ rest, validSeg seg := fun seg h => hval seg (List.mem_cons_of_mem _ h)
    have htr : jsTrim s.text = s.text := hvs.2.2.1
    have hcne := srtCore_ne k s
    have hch := srtCore_headFails k s
    have hcr := srtCore_rev_headFails (k := k) hvs
    have hcl := srtCore_getLast (k := k) hvs
    have hcn := srtCore_nl2_none (k := k) hvs
    cases rest with
    | nil =>
      have hm : joinSep ['\n'] (mapWithIndex srtBlock k [s]) = srtBlock k s := rfl
      have hpb := parseSrtBlock_core (k := k) hvs (jsTrim_concat_nl hcne hch hcr)
      rw [hm, srtBlock_eq_core htr, splitOnSep_of_none (nl2_none_concat hcn hcl)]
      simp [hpb]
    | cons s2 rest2 =>
      have hjoin : joinSep ['\n'] (mapWithIndex srtBlock k (s :: s2 :: rest2)) =
          srtBlock k s ++ ['\n'] ++
            joinSep ['\n'] (mapWithIndex srtBlock (k + 1) (s2 :: rest2)) := rfl
      have hshape : srtBlock k s ++ ['\n'] ++
          joinSep ['\n'] (mapWithIndex srtBlock (k + 1) (s2 :: rest2)) =
          srtCore k s ++ '\n' :: '\n' ::
            joinSep ['\n'] (mapWithIndex srtBlock (k + 1) (s2 :: rest2)) := by
        rw [srtBlock_eq_core htr]
        simp [List.append_assoc, List.cons_append]
      rw [hjoin, hshape, splitOnSep_of_some (nl2_boundary hcn hcl)]
      have htake : (srtCore k s ++ '\n' :: '\n' ::
          joinSep ['\n'] (mapWithIndex srtBlock (k + 1) (s2 :: rest2))).take
            (srtCore k s).length = srtCore k s :=
        List.take_left' rfl
      have hdrop : (srtCore k s ++ '\n' :: '\n' ::
          joinSep ['\n'] (mapWithIndex srtBlock (k + 1) (s2 :: rest2))).drop
            ((srtCore k s).length + ((['\n'] : List Char).length + 1)) =
          joinSep ['\n'] (mapWithIndex srtBlock (k + 1) (s2 :: rest2)) := by
        rw [show srtCore k s ++ '\n' :: '\n' ::
            joinSep ['\n'] (mapWithIndex srtBlock (k + 1) (s2 :: rest2)) =
            (srtCore k s ++ ['\n', '\n']) ++
              joinSep ['\n'] (mapWithIndex srtBlock (k + 1) (s2 :: rest2)) from by
          simp [List.append_assoc]]
        exact List.drop_left' (by rw [List.length_append]; rfl)
      rw [htake, hdrop]
      have hpb := parseSrtBlock_core (k := k) hvs (jsTrim_eq_self hch hcr)
      rw [List.map_cons]
      simp only [List.filterMap_cons, hpb]
      rw [ih (k + 1) hvrest]

theorem replaceCrlf_of_no_cr : ∀ {s : List Char}, '\r' ∉ s → replaceCrlf s = s := by
  intro s
  induction s with
  | nil => intro _; rfl
  | cons x xs ih =>
    cases xs with
    | nil => intro _; rfl
    | cons y rest =>
      intro h
      simp only [List.mem_cons, not_or] at h
      simp only [replaceCrlf]
      rw [if_neg (fun hc => h.1 hc.1.symm)]
      have ht : replaceCrlf (y :: rest) = y :: rest := by
        apply ih
        simp only [List.mem_cons, not_or]
        exact h.2
      rw [ht]

theorem map_cr_id {s : List Char} (h : '\r' ∉ s) :
    s.map (fun c => if c = '\r' then '\n' else c) = s := by
  induction s with
  | nil => rfl
  | cons x xs ih =>
    simp only [List.mem_cons, not_or] at h
    rw [List.map_cons, if_neg (fun hc => h.1 hc.symm), ih h.2]

theorem normalizeNewlines_of_no_cr {s : List Char} (h : '\r' ∉ s) :
    normalizeNewlines s = s := by
  rw [normalizeNewlines, replaceCrlf_of_no_cr h, map_cr_id h]

theorem mem_joinSep {sep : List Char} {x : Char} :
    ∀ (L : List (List Char)), x ∈ joinSep sep L → x ∈ sep ∨ ∃ l ∈ L, x ∈ l := by
  intro L
  induction L with
  | nil =>
    intro h
    simp [joinSep] at h
  | cons a Lr ih =>
    cases Lr with
    | nil =>
      intro h
      right
      exact ⟨a, List.mem_cons_self _ _, by simpa [joinSep] using h⟩
    | cons b Lrr =>
      intro h
      rw [show joinSep sep (a :: b :: Lrr) = a ++ sep ++ joinSep sep (b :: Lrr) from rfl] at h
      simp only [List.mem_append] at h
      rcases h with (h | h) | h
      · right
        exact ⟨a, List.mem_cons_self _ _, h⟩
      · left
        exact h
      · rcases ih h with h | ⟨l, hl, hxl⟩
        · left
          exact h
        · right
          exact ⟨l, List.mem_cons_of_mem _ hl, hxl⟩

theorem mem_mapWithIndex {α β : Type} (f : ℕ → α → β) :
    ∀ (k : ℕ) (xs : List α) (y : β), y ∈ mapWithIndex f k xs → ∃ i x, x ∈ xs ∧ y = f i x := by
  intro k xs
  induction xs generalizing k with
  | nil =>
    intro y h
    simp [mapWithIndex] at h
  | cons a r ih =>
    intro y h
    rw [show mapWithIndex f k (a :: r) = f k a :: mapWithIndex f (k + 1) r from rfl] at h
    rcases List.mem_cons.mp h with h | h
    · exact ⟨k, a, List.mem_cons_self _ _, h⟩
    · rcases ih (k + 1) y h with ⟨i, x, hx, hy⟩
      exact ⟨i, x, List.mem_cons_of_mem _ hx, hy⟩

theorem cr_not_mem_srtBlock {k : ℕ} {seg : SubtitleSegment} (hv : validSeg seg) :
    '\r' ∉ srtBlock k seg := by
  obtain ⟨⟨t1, hs1, h01, _⟩, ⟨t2, hs2, h02, _⟩, htr, hne, hnl, hcr⟩ := hv
  rw [srtBlock_eq_core htr, srtCore, hs1, hs2]
  intro hx
  simp only [List.mem_append, List.mem_cons, List.mem_singleton] at hx
  rcases hx with (h | h | (h | h | h) | h | h) | h
  · exact not_mem_natDigits (by decide) _ h
  · exact absurd h (by decide)
  · exact not_mem_formatSrtTime h01 (by decide) (by decide) (by decide) h
  · exact absurd h (by decide : '\r' ∉ ls " --> ")
  · exact not_mem_formatSrtTime h02 (by decide) (by decide) (by decide) h
  · exact absurd h (by decide)
  · exact hcr h
  · exact absurd h (by decide)

theorem cr_not_mem_generateSrt {segs : List SubtitleSegment}
    (hval : ∀ seg ∈ segs, validSeg seg) : '\r' ∉ generateSrt segs := by
  intro h
  rcases mem_joinSep _ h with hsep | ⟨l, hl, hxl⟩
  · simp at hsep
  · rcases mem_mapWithIndex srtBlock 0 segs l hl with ⟨i, seg, hseg, rfl⟩
    exact cr_not_mem_srtBlock (hval seg hseg) hxl

theorem roundtrip_time {t : ℚ} (h0 : 0 ≤ t) (hlt : t < 86400) :
    ∃ u : ℚ, parseTimeString (formatSrtTime (some t)) = some u ∧ |u - t| < 1/1000 := by
  refine ⟨(⌊t * 1000⌋ : ℚ) / 1000, parseTimeString_formatSrtTime h0 hlt, ?_⟩
  have hb1 : (⌊t * 1000⌋ : ℚ) ≤ t * 1000 := Int.floor_le _
  have hb2 : t * 1000 - 1 < (⌊t * 1000⌋ : ℚ) := Int.sub_one_lt_floor _
  rw [abs_lt]
  constructor <;> linarith

theorem roundtrip_forall2 (segs : List SubtitleSegment) : ∀ k : ℕ,
    (∀ seg ∈ segs, validSeg seg) →
    List.Forall₂ (fun out orig : SubtitleSegment =>
        out.text = orig.text ∧
        (∀ t : ℚ, orig.startTime = some t →
          ∃ u : ℚ, out.startTime = some u ∧ |u - t| < 1/1000) ∧
        (∀ t : ℚ, orig.endTime = some t →
          ∃ u : ℚ, out.endTime = some u ∧ |u - t| < 1/1000))
      (mapWithIndex (fun (i : ℕ) (p : Option ℚ × Option ℚ × List Char) =>
          ({ id := i, startTime := p.1, endTime := p.2.1, text := p.2.2 } : SubtitleSegment))
        k (segs.map (fun seg => (parseTimeString (formatSrtTime seg.startTime),
          parseTimeString (formatSrtTime seg.endTime), seg.text))))
      segs := by
  induction segs with
  | nil =>
    intro k _
    exact List.Forall₂.nil
  | cons s rest ih =>
    intro k hval
    rw [List.map_cons]
    refine List.Forall₂.cons ?_ (ih (k + 1) (fun seg h => hval seg (List.mem_cons_of_mem _ h)))
    obtain ⟨⟨t1, hs1, h01, hlt1⟩, ⟨t2, hs2, h02, hlt2⟩, htr, hne2, hnl, hcrr⟩ :=
      hval s (List.mem_cons_self _ _)
    refine ⟨rfl, ?_, ?_⟩
    · intro t ht
      rw [hs1] at ht
      injection ht with ht
      subst ht
      show ∃ u : ℚ, parseTimeString (formatSrtTime s.startTime) = some u ∧ |u - t1| < 1/1000
      rw [hs1]
      exact roundtrip_time h01 hlt1
    · intro t ht
      rw [hs2] at ht
      injection ht with ht
      subst ht
      show ∃ u : ℚ, parseTimeString (formatSrtTime s.endTime) = some u ∧ |u - t2| < 1/1000
      rw [hs2]
      exact roundtrip_time h02 hlt2

/-- Claim C2 (amended): for every NON-EMPTY segment list whose texts are
trimmed, non-blank and SINGLE-LINE (no line feed or carriage return) and whose
start and end times are real (non-NaN) values within one day,
`parseSrt (generateSrt segs)` reproduces the segments one for one: each output
record carries exactly the original text, and start and end times within
millisecond rounding of the originals.  The extra restrictions beyond the
claim's "trimmed, non-blank" proviso are forced: a trimmed text containing a
newline is flattened to spaces on the way back, and a NaN or ≥ 24 h time is
not recovered (see the counterexample). -/
theorem claim_C2_srt_roundtrip (segs : List SubtitleSegment) (hne : segs ≠ [])
    (hval : ∀ seg ∈ segs, validSeg seg) :
    List.Forall₂ (fun out orig : SubtitleSegment =>
        out.text = orig.text ∧
        (∀ t : ℚ, orig.startTime = some t →
          ∃ u : ℚ, out.startTime = some u ∧ |u - t| < 1/1000) ∧
        (∀ t : ℚ, orig.endTime = some t →
          ∃ u : ℚ, out.endTime = some u ∧ |u - t| < 1/1000))
      (parseSrt (generateSrt segs)) segs := by
  have hcr : '\r' ∉ generateSrt segs := cr_not_mem_generateSrt hval
  have hnorm : normalizeNewlines (generateSrt segs) = generateSrt segs :=
    normalizeNewlines_of_no_cr hcr
  have hps : parseSrt (generateSrt segs) =
      mapWithIndex (fun (i : ℕ) (p : Option ℚ × Option ℚ × List Char) =>
        ({ id := i, startTime := p.1, endTime := p.2.1, text := p.2.2 } : SubtitleSegment)) 0
        ((splitOnSep '\n' ['\n'] (normalizeNewlines (generateSrt segs))).filterMap
          parseSrtBlock) := rfl
  rw [hps, hnorm, generateSrt, generateSrt_blocks segs 0 hval]
  exact roundtrip_forall2 segs 0 hval

/-- Counterexample to claim C2 as stated: the segment text `a\nb` is trimmed
and non-blank, yet the round trip returns the text `a b` (the newline inside a
record's text is read back as a line split and re-joined with spaces), and the
24 h start time 86400 comes back as 0 (day wrap), far outside millisecond
rounding. -/
theorem claim_C2_counterexample :
    jsTrim (ls "a\nb") = ls "a\nb" ∧ ls "a\nb" ≠ [] ∧
    (parseSrt (generateSrt
        [({ id := 0, startTime := some 86400, endTime := some 86401, text := ls "a\nb" } :
          SubtitleSegment)])).map (fun seg => seg.text) = [ls "a b"] ∧
    ls "a b" ≠ ls "a\nb" ∧
    (parseSrt (generateSrt
        [({ id := 0, startTime := some 86400, endTime := some 86401, text := ls "a\nb" } :
          SubtitleSegment)])).map (fun seg => seg.startTime) = [some (0 : ℚ)] ∧
    ¬ |(0 : ℚ) - 86400| < 1/1000 := by
  have hfmt1 : formatSrtTime (some (86400 : ℚ)) = ls "00:00:00,000" := by
    have hNv : ((⌊(86400 : ℚ) * 1000⌋).toNat) = 86400000 := by
      rw [show ((86400 : ℚ) * 1000) = ((86400000 : ℤ) : ℚ) by norm_num, Int.floor_intCast]
      rfl
    rw [formatSrtTime_nonneg 86400 (by norm_num), hNv]
    decide
  have hfmt2 : formatSrtTime (some (86401 : ℚ)) = ls "00:00:01,000" := by
    have hNv : ((⌊(86401 : ℚ) * 1000⌋).toNat) = 86401000 := by
      rw [show ((86401 : ℚ) * 1000) = ((86401000 : ℤ) : ℚ) by norm_num, Int.floor_intCast]
      rfl
    rw [formatSrtTime_nonneg 86401 (by norm_num), hNv]
    decide
  have hgen : generateSrt
      [({ id := 0, startTime := some 86400, endTime := some 86401, text := ls "a\nb" } :
        SubtitleSegment)] = ls "1\n00:00:00,000 --> 00:00:01,000\na\nb\n" := by
    rw [show generateSrt
        [({ id := 0, startTime := some 86400, endTime := some 86401, text := ls "a\nb" } :
          SubtitleSegment)] =
        natDigits (0 + 1) ++ '\n' ::
          (formatSrtTime (some (86400 : ℚ)) ++ ls " --> " ++
            formatSrtTime (some (86401 : ℚ))) ++ '\n' :: (jsTrim (ls "a\nb") ++ ['\n'])
      from rfl, hfmt1, hfmt2]
    decide
  have hparse : parseSrt (ls "1\n00:00:00,000 --> 00:00:01,000\na\nb\n") =
      [({ id := 0, startTime := parseTimeString (ls "00:00:00,000"),
          endTime := parseTimeString (ls "00:00:01,000"), text := ls "a b" } :
        SubtitleSegment)] := rfl
  have hpt1 : parseTimeString (ls "00:00:00,000") = some 0 := by
    rw [show (ls "00:00:00,000") =
        ls "00" ++ (':' :: (ls "00" ++ (':' :: (ls "00" ++ (',' :: ls "000"))))) from by decide]
    rw [parseTimeString_three (by decide) (by decide) (by decide) (by decide) (by decide)
      (by decide) (by decide) (Or.inr rfl)]
    simp only [fracQ, show digitsVal (ls "00") = 0 from by decide,
      show digitsVal (ls "000") = 0 from by decide,
      show (ls "000").length = 3 from by decide]
    norm_num
  refine ⟨by decide, by decide, ?_, by decide, ?_, ?_⟩
  · rw [hgen, hparse]
    rfl
  · rw [hgen, hparse]
    simp [hpt1]
  · rw [abs_lt]
    push_neg
    intro h
    linarith

/-- Witness for the amended C2 at a single valid segment. -/
theorem claim_C2_srt_roundtrip_witness :
    List.Forall₂ (fun out orig : SubtitleSegment =>
        out.text = orig.text ∧
        (∀ t : ℚ, orig.startTime = some t →
          ∃ u : ℚ, out.startTime = some u ∧ |u - t| < 1/1000) ∧
        (∀ t : ℚ, orig.endTime = some t →
          ∃ u : ℚ, out.endTime = some u ∧ |u - t| < 1/1000))
      (parseSrt (generateSrt
        [({ id := 7, startTime := some 1, endTime := some 2, text := ls "hi" } :
          SubtitleSegment)]))
      [({ id := 7, startTime := some 1, endTime := some 2, text := ls "hi" } :
        SubtitleSegment)] := by
  apply claim_C2_srt_roundtrip
  · simp
  · intro seg h
    simp only [List.mem_singleton] at h
    subst h
    exact ⟨⟨1, rfl, by norm_num, by norm_num⟩, ⟨2, rfl, by norm_num, by norm_num⟩,
      by decide, by decide, by decide, by decide⟩
